import Mathlib

/-!
# crypter: an AES-CFB envelope with hex transport (`src/crypt.go`)

A shallow embedding of `crypt.go` and of the standard-library routines it
calls, followed by theorems about the envelope's operations.

Conventions of the embedding.

* A Go `byte` is a `Fin 256`; a `[]byte` is a `List Byte`, the nil slice being
  `[]`; a Go `string` is its byte sequence, so that `len`, `[]byte(s)` and
  `string(b)` are `List.length` and the identity.
* A call that panics, or a loop of the model that runs out of fuel, ends in
  `Except.error`; a call that returns ends in `Except.ok` with the returned
  values. A Go `error` result is an `Option GoError`, `none` being `nil`.
* A method with receiver `*Crypt` takes the envelope and returns the envelope
  after the call together with the method's results.
* `crypto/aes` is not part of the repository: its block transformation is a
  parameter `aes`, a function from a key and a 16-byte block to a 16-byte
  block. `rand.Reader` is a parameter as well.
-/

namespace Crypter

/-- Go's `byte`. -/
abbrev Byte := Fin 256

/-- Go's `string`: an immutable sequence of bytes. -/
abbrev GoString := List Byte

/-- Bytes of an ASCII string literal. -/
def ascii (s : String) : GoString := s.data.map (fun c => Fin.ofNat c.toNat)

/-- Values of Go's `error` interface that the program can meet. -/
inductive GoError where
  /-- Go: `aes.KeySizeError(k)`. -/
  | KeySizeError (k : Nat)
  /-- Go: `errors.New("Invalid cipher text")`. -/
  | InvalidCipherText
  /-- Go: `io.EOF`. -/
  | EOF
  /-- Go: `io.ErrUnexpectedEOF`. -/
  | ErrUnexpectedEOF
  /-- Any other failure reported by the random source. -/
  | ReaderError (code : Nat)
  /-- Go: `hex.InvalidByteError(c)`. -/
  | InvalidByteError (c : Byte)
  /-- Go: `hex.ErrLength`. -/
  | ErrLength
  deriving DecidableEq, Repr

/-- Ways in which a call ends without returning. -/
inductive Abort where
  /-- Go: `panic("The given key is of invalid size")`. -/
  | InvalidKeySize
  /-- Go: `panic("The given string: " + text + " is not a valid hex string")`. -/
  | InvalidHexString (text : GoString)
  /-- Run-time panic: slice bounds out of range. -/
  | SliceBounds
  /-- Go: `panic("cipher.newCFB: IV length must equal block size")`. -/
  | IVLength
  /-- Go: `panic("crypto/cipher: output smaller than input")`. -/
  | OutputSmaller
  /-- Go: `panic("crypto/aes: input not full block")`. -/
  | InputNotFullBlock
  /-- Go: `panic("crypto/aes: output not full block")`. -/
  | OutputNotFullBlock
  /-- Go: `panic("subtle.XORBytes: dst too short")`. -/
  | XorDstShort
  /-- The loop of the model was given too little fuel. -/
  | OutOfFuel
  deriving DecidableEq, Repr

/-- Equality of outcomes is decidable, so that closed runs can be evaluated. -/
instance instDecidableEqExcept {ε α : Type} [DecidableEq ε] [DecidableEq α] :
    DecidableEq (Except ε α)
  | .ok a, .ok b =>
    if h : a = b then isTrue (by rw [h]) else isFalse (fun h' => h (Except.ok.inj h'))
  | .error a, .error b =>
    if h : a = b then isTrue (by rw [h]) else isFalse (fun h' => h (Except.error.inj h'))
  | .ok _, .error _ => isFalse (fun h => by cases h)
  | .error _, .ok _ => isFalse (fun h => by cases h)

/-! ## Slices and built-ins -/

/-- Go: `s[:j]`, with the capacity of `s` taken to be its length. -/
def sliceTo (s : List Byte) (j : Nat) : Except Abort (List Byte) :=
  if j ≤ s.length then .ok (s.take j) else .error .SliceBounds

/-- Go: `s[i:]`. -/
def sliceFrom (s : List Byte) (i : Nat) : Except Abort (List Byte) :=
  if i ≤ s.length then .ok (s.drop i) else .error .SliceBounds

/-- Go: `copy(dst, src)`; the result is `dst` after the call. -/
def copy (dst src : List Byte) : List Byte :=
  src.take dst.length ++ dst.drop src.length

/-- Go: `make([]byte, n)`. -/
def make (n : Nat) : List Byte := List.replicate n 0

/-! ## `crypto/aes` and `crypto/cipher` -/

/-- Go: `aes.BlockSize`. -/
def BlockSize : Nat := 16

/-- A full cipher block. -/
abbrev Block := { b : List Byte // b.length = 16 }

/-- The keyed block transformation of a `cipher.Block`. -/
abbrev BlockFn := Block → Block

/-- The block transformation of `crypto/aes`, as a function of the key. -/
abbrev AES := List Byte → BlockFn

/-- Go: `aes.NewCipher(key)`. -/
def NewCipher (aes : AES) (key : List Byte) : Except GoError BlockFn :=
  let k := key.length
  if k = 16 ∨ k = 24 ∨ k = 32 then .ok (aes key) else .error (.KeySizeError k)

/-- Go: `block.Encrypt(dst, src)`; the result is `dst` after the call. -/
def blockEncrypt (b : BlockFn) (dst src : List Byte) : Except Abort (List Byte) :=
  if h : src.length < BlockSize then .error .InputNotFullBlock
  else if dst.length < BlockSize then .error .OutputNotFullBlock
  else .ok ((b ⟨src.take 16, by
    simp only [BlockSize] at h; simp only [List.length_take]; omega⟩).val ++ dst.drop BlockSize)

/-- Go: `subtle.XORBytes(dst, x, y)`; the result is `dst` after the call and
the number of bytes written. -/
def XORBytes (dst x y : List Byte) : Except Abort (List Byte × Nat) :=
  let n := min x.length y.length
  if n = 0 then .ok (dst, 0)
  else if n > dst.length then .error .XorDstShort
  else .ok (List.zipWith (fun a c => a ^^^ c) x y ++ dst.drop n, n)

/-- Go: the `cfb` stream of `crypto/cipher`. -/
structure cfb where
  b : BlockFn
  next : List Byte
  out : List Byte
  outUsed : Nat
  decrypt : Bool

/-- Go: `newCFB(block, iv, decrypt)`. -/
def newCFB (block : BlockFn) (iv : List Byte) (decrypt : Bool) : Except Abort cfb :=
  let blockSize := BlockSize
  if iv.length ≠ blockSize then .error .IVLength
  else .ok
    { b := block
      out := make blockSize
      next := copy (make blockSize) iv
      outUsed := blockSize
      decrypt := decrypt }

/-- Go: `cipher.NewCFBEncrypter(block, iv)`. -/
def NewCFBEncrypter (block : BlockFn) (iv : List Byte) : Except Abort cfb :=
  newCFB block iv false

/-- Go: `cipher.NewCFBDecrypter(block, iv)`. -/
def NewCFBDecrypter (block : BlockFn) (iv : List Byte) : Except Abort cfb :=
  newCFB block iv true

/-- The loop `for len(src) > 0 { ... }` of `(*cfb).XORKeyStream`, one
iteration per unit of fuel. The result is the stream after the loop and the
contents of `dst`. -/
def cfb.loop : Nat → cfb → List Byte → List Byte → Except Abort (cfb × List Byte)
  | 0, x, dst, src => if 0 < src.length then .error .OutOfFuel else .ok (x, dst)
  | fuel + 1, x, dst, src =>
    if 0 < src.length then do
      let x ← (if x.outUsed = x.out.length then do
          let o ← blockEncrypt x.b x.out x.next
          pure { x with out := o, outUsed := 0 }
        else pure x : Except Abort cfb)
      let x ← (if x.decrypt then do
          let t ← sliceFrom x.next x.outUsed
          pure { x with next := x.next.take x.outUsed ++ copy t src }
        else pure x : Except Abort cfb)
      let k ← sliceFrom x.out x.outUsed
      let (dst, n) ← XORBytes dst src k
      let x ← (if !x.decrypt then do
          let t ← sliceFrom x.next x.outUsed
          pure { x with next := x.next.take x.outUsed ++ copy t dst }
        else pure x : Except Abort cfb)
      let dstRest ← sliceFrom dst n
      let srcRest ← sliceFrom src n
      let (x, written) ← cfb.loop fuel { x with outUsed := x.outUsed + n } dstRest srcRest
      pure (x, dst.take n ++ written)
    else .ok (x, dst)

/-- Go: `(*cfb).XORKeyStream(dst, src)`. Every iteration of the loop consumes
at least one byte of `src`, so `len(src)` iterations suffice. -/
def cfb.XORKeyStream (x : cfb) (dst src : List Byte) : Except Abort (cfb × List Byte) :=
  if dst.length < src.length then .error .OutputSmaller
  else cfb.loop src.length x dst src

/-! ## `io` and `crypto/rand` -/

/-- A byte source such as `rand.Reader`: it delivers `data`, then fails with
`err`. -/
structure Reader where
  data : List Byte
  err : GoError

/-- Go: `io.ReadFull(r, buf)`; the result is `buf` after the call, the number
of bytes read and the error. -/
def ReadFull (r : Reader) (buf : List Byte) : List Byte × Nat × Option GoError :=
  let need := buf.length
  let n := min r.data.length need
  let buf := copy buf (r.data.take n)
  if n ≥ need then (buf, n, none)
  else if n > 0 ∧ r.err = .EOF then (buf, n, some .ErrUnexpectedEOF)
  else (buf, n, some r.err)

/-! ## `encoding/hex` -/

/-- Go: `const hextable = "0123456789abcdef"`. -/
def hextable : List Byte := ascii "0123456789abcdef"

/-- Go: `hex.Encode`, the loop over `src`: `hextable[v>>4]` and
`hextable[v&0x0f]` for every byte `v`. Both indices are below 16, so the
default of `getD` is never taken. -/
def Encode : List Byte → List Byte
  | [] => []
  | v :: src =>
    hextable.getD (v >>> 4).val 0 :: hextable.getD (v &&& 0x0f).val 0 :: Encode src

/-- Go: `hex.EncodeToString(src)`. -/
def EncodeToString (src : List Byte) : GoString := Encode src

/-- Go: `fromHexChar(c)` of `encoding/hex`. The three cases are
`'0' <= c && c <= '9'`, `'a' <= c && c <= 'f'` and `'A' <= c && c <= 'F'`,
with the characters written as their byte values. -/
def fromHexChar (c : Byte) : Byte × Bool :=
  if 0x30 ≤ c ∧ c ≤ 0x39 then (c - 0x30, true)
  else if 0x61 ≤ c ∧ c ≤ 0x66 then (c - 0x61 + 10, true)
  else if 0x41 ≤ c ∧ c ≤ 0x46 then (c - 0x41 + 10, true)
  else (0, false)

/-- Go: `hex.DecodeString(s)`: the bytes decoded before the first error, and
the error. -/
def DecodeString : GoString → List Byte × Option GoError
  | p :: q :: src =>
    let (a, ok) := fromHexChar p
    if !ok then ([], some (.InvalidByteError p))
    else
      let (b, ok) := fromHexChar q
      if !ok then ([], some (.InvalidByteError q))
      else
        let (rest, err) := DecodeString src
        (((a <<< 4) ||| b) :: rest, err)
  | [p] =>
    if !(fromHexChar p).2 then ([], some (.InvalidByteError p))
    else ([], some .ErrLength)
  | [] => ([], none)

/-! ## `crypt.go` -/

/-- Go: `type Crypt struct`. -/
structure Crypt where
  UnencryptedData : List Byte
  CipherData : List Byte
  Key : List Byte
  deriving DecidableEq, Repr

/-- Go: `func ValidateCryptKey(key string)`. -/
def ValidateCryptKey (key : GoString) : Except Abort Unit :=
  let keyLength := key.length
  let validSizes := [16, 24, 32]
  if validSizes.any (fun size => keyLength == size) then .ok ()
  else .error .InvalidKeySize

/-- Go: `func DecodeHexString(text string) ([]byte)`. -/
def DecodeHexString (text : GoString) : Except Abort (List Byte) :=
  let (textBytes, err) := DecodeString text
  if err ≠ none then .error (.InvalidHexString text)
  else .ok textBytes

/-- Go: `func NewCryptFromUnencryptedData(data []byte, key string) (*Crypt)`. -/
def NewCryptFromUnencryptedData (data : List Byte) (key : GoString) : Except Abort Crypt := do
  ValidateCryptKey key
  pure { UnencryptedData := data, CipherData := [], Key := key }

/-- Go: `func NewCryptFromPlainText(plainText, key string) (*Crypt)`. -/
def NewCryptFromPlainText (plainText key : GoString) : Except Abort Crypt :=
  NewCryptFromUnencryptedData plainText key

/-- Go: `func NewCryptFromCipherData(cipherData []byte, key string) (*Crypt)`. -/
def NewCryptFromCipherData (cipherData : List Byte) (key : GoString) : Except Abort Crypt := do
  ValidateCryptKey key
  pure { UnencryptedData := [], CipherData := cipherData, Key := key }

/-- Go: `func NewCryptFromHexCipherText(cipherText, key string) (*Crypt)`. The
argument `DecodeHexString(cipherText)` is evaluated before the call. -/
def NewCryptFromHexCipherText (cipherText key : GoString) : Except Abort Crypt := do
  let cipherData ← DecodeHexString cipherText
  NewCryptFromCipherData cipherData key

/-- Go: `func (crypt *Crypt) Encrypt() ([]byte, error)`. The slice `iv`
aliases the first block of `crypt.CipherData`, and the destination of the
stream aliases the rest. -/
def Crypt.Encrypt (aes : AES) (rand : Reader) (crypt : Crypt) :
    Except Abort (Crypt × List Byte × Option GoError) :=
  match NewCipher aes crypt.Key with
  | .error err => .ok (crypt, [], some err)
  | .ok block => do
    let crypt := { crypt with CipherData := make (BlockSize + crypt.UnencryptedData.length) }
    let iv ← sliceTo crypt.CipherData BlockSize
    let (iv, _, err) := ReadFull rand iv
    let crypt := { crypt with CipherData := copy crypt.CipherData iv }
    match err with
    | some err => .ok (crypt, [], some err)
    | none => do
      let stream ← NewCFBEncrypter block iv
      let dst ← sliceFrom crypt.CipherData BlockSize
      let (_, dst) ← stream.XORKeyStream dst crypt.UnencryptedData
      let crypt := { crypt with CipherData := crypt.CipherData.take BlockSize ++ dst }
      .ok (crypt, crypt.CipherData, none)

/-- Go: `func (crypt *Crypt) EncryptToString() (string, error)`. -/
def Crypt.EncryptToString (aes : AES) (rand : Reader) (crypt : Crypt) :
    Except Abort (Crypt × GoString × Option GoError) := do
  let (crypt, data, err) ← crypt.Encrypt aes rand
  match err with
  | some err => .ok (crypt, [], some err)
  | none => .ok (crypt, EncodeToString data, none)

/-- Go: `func (crypt *Crypt) Decrypt() ([]byte, error)`. -/
def Crypt.Decrypt (aes : AES) (crypt : Crypt) :
    Except Abort (Crypt × List Byte × Option GoError) :=
  match NewCipher aes crypt.Key with
  | .error err => .ok (crypt, [], some err)
  | .ok block =>
    if crypt.CipherData.length < BlockSize then
      .ok (crypt, [], some .InvalidCipherText)
    else do
      let iv ← sliceTo crypt.CipherData BlockSize
      let cipherText ← sliceFrom crypt.CipherData BlockSize
      let crypt := { crypt with UnencryptedData := make cipherText.length }
      let stream ← NewCFBDecrypter block iv
      let (_, dst) ← stream.XORKeyStream crypt.UnencryptedData cipherText
      let crypt := { crypt with UnencryptedData := dst }
      .ok (crypt, crypt.UnencryptedData, none)

/-- Go: `func (crypt *Crypt) DecryptToString() (string, error)`. -/
def Crypt.DecryptToString (aes : AES) (crypt : Crypt) :
    Except Abort (Crypt × GoString × Option GoError) := do
  let (crypt, data, err) ← crypt.Decrypt aes
  match err with
  | some _ => .ok (crypt, [], none)
  | none => .ok (crypt, data, none)

/-! ## A small block transformation for concrete evaluation -/

/-- A stand-in block transformation: reverse the block and add the first key
byte to every byte. -/
def toyAES : AES := fun key blk =>
  ⟨blk.val.reverse.map (fun v => v + key.headD 0), by simp [blk.property]⟩

/-- The 16-byte key `"0123456789abcdef"`. -/
def key16 : GoString := ascii "0123456789abcdef"

/-- A 32-byte key. -/
def key32 : GoString := ascii "0123456789abcdef0123456789abcdef"

/-- A block used as initialisation vector in concrete evaluations. -/
def iv0 : Block := ⟨[1, 8, 15, 22, 29, 36, 43, 50, 57, 64, 71, 78, 85, 92, 99, 106], rfl⟩

/-- A random source that delivers `iv0` and four more bytes. -/
def rand0 : Reader := ⟨iv0.val ++ [113, 120, 127, 134], .EOF⟩

/-! ## CFB mode as the specification words it -/

/-- Bytewise exclusive or of two byte sequences, as long as the shorter one. -/
def xorBlock (x y : List Byte) : List Byte := List.zipWith (fun a c => a ^^^ c) x y

/-- CFB encryption with full-block feedback: the plaintext is cut into 16-byte
segments, each ciphertext segment is the plaintext segment xored with the
block transformation of the previous ciphertext segment, the first one being
seeded with the IV; a short last segment uses the leading bytes only. -/
def cfbEncryptBlocks (E : BlockFn) : Nat → Block → List Byte → List Byte
  | 0, _, _ => []
  | n + 1, prev, P =>
    if P = [] then []
    else
      let c := xorBlock (P.take 16) (E prev).val
      if h : c.length = 16 then c ++ cfbEncryptBlocks E n ⟨c, h⟩ (P.drop 16) else c

/-- CFB encryption of `P` seeded with `iv`. -/
def cfbEncryptSpec (E : BlockFn) (iv : Block) (P : List Byte) : List Byte :=
  cfbEncryptBlocks E P.length iv P

/-- CFB decryption with full-block feedback: each plaintext segment is the
ciphertext segment xored with the block transformation of the previous
ciphertext segment, the first one being seeded with the IV. -/
def cfbDecryptBlocks (E : BlockFn) : Nat → Block → List Byte → List Byte
  | 0, _, _ => []
  | n + 1, prev, C =>
    if C = [] then []
    else
      let c := C.take 16
      let p := xorBlock c (E prev).val
      if h : c.length = 16 then p ++ cfbDecryptBlocks E n ⟨c, h⟩ (C.drop 16) else p

/-- CFB decryption of `C` seeded with `iv`. -/
def cfbDecryptSpec (E : BlockFn) (iv : Block) (C : List Byte) : List Byte :=
  cfbDecryptBlocks E C.length iv C

/-! ## Sequences of calls on one envelope -/

/-- One call of a method of the envelope. A call that draws an IV carries the
random source it reads. -/
inductive Call where
  /-- Go: `crypt.Encrypt()`. -/
  | Encrypt (rand : Reader)
  /-- Go: `crypt.EncryptToString()`. -/
  | EncryptToString (rand : Reader)
  /-- Go: `crypt.Decrypt()`. -/
  | Decrypt
  /-- Go: `crypt.DecryptToString()`. -/
  | DecryptToString

/-- The envelope after one call, the results of the call being dropped. -/
def Crypt.call (aes : AES) (crypt : Crypt) : Call → Except Abort Crypt
  | .Encrypt rand => (crypt.Encrypt aes rand).map (fun r => r.1)
  | .EncryptToString rand => (crypt.EncryptToString aes rand).map (fun r => r.1)
  | .Decrypt => (crypt.Decrypt aes).map (fun r => r.1)
  | .DecryptToString => (crypt.DecryptToString aes).map (fun r => r.1)

/-- The envelope after a sequence of calls, made one after the other. -/
def Crypt.calls (aes : AES) : Crypt → List Call → Except Abort Crypt
  | crypt, [] => .ok crypt
  | crypt, c :: cs =>
    match crypt.call aes c with
    | .ok next => Crypt.calls aes next cs
    | .error a => .error a

/-! ## Predicates used in the statements -/

/-- The key lengths that `aes.NewCipher` and `ValidateCryptKey` accept. -/
def validKeyLength (n : Nat) : Prop := n = 16 ∨ n = 24 ∨ n = 32

instance (n : Nat) : Decidable (validKeyLength n) := by unfold validKeyLength; infer_instance


/-- A byte is one of the characters `0-9`, `a-f`, `A-F`. -/
def isHexDigit (c : Byte) : Prop :=
  (0x30 ≤ c ∧ c ≤ 0x39) ∨ (0x61 ≤ c ∧ c ≤ 0x66) ∨ (0x41 ≤ c ∧ c ≤ 0x46)

instance (c : Byte) : Decidable (isHexDigit c) := by unfold isHexDigit; infer_instance

/-- A string is malformed hex when its length is odd or it holds a character
outside `[0-9a-fA-F]`. -/
def malformedHex (s : GoString) : Prop :=
  s.length % 2 = 1 ∨ ∃ c ∈ s, ¬ isHexDigit c

instance (s : GoString) : Decidable (malformedHex s) := by unfold malformedHex; infer_instance

/-- The lower-case spelling of a hex digit: `A-F` become `a-f`. -/
def lowerHex (c : Byte) : Byte := if 0x41 ≤ c ∧ c ≤ 0x46 then c + 0x20 else c

/-! ## Lemmas on bytes and blocks -/

theorem byte_xor_cancel (a b : Byte) : (a ^^^ b) ^^^ b = a := by
  apply Fin.ext
  show ((a.val ^^^ b.val) % 256 ^^^ b.val) % 256 = a.val
  have h : a.val ^^^ b.val < 256 := @Nat.xor_lt_two_pow a.val b.val 8 a.isLt b.isLt
  rw [Nat.mod_eq_of_lt h, Nat.xor_cancel_right, Nat.mod_eq_of_lt a.isLt]

theorem xorBlock_length (x y : List Byte) : (xorBlock x y).length = min x.length y.length := by
  simp [xorBlock]

theorem xorBlock_cancel : ∀ (x y : List Byte), x.length ≤ y.length →
    xorBlock (xorBlock x y) y = x
  | [], _, _ => by simp [xorBlock]
  | a :: x, [], h => by simp at h
  | a :: x, b :: y, h => by
    have ih := xorBlock_cancel x y (by simpa using h)
    simp only [xorBlock, List.zipWith_cons_cons] at ih ⊢
    rw [ih, byte_xor_cancel]

theorem xorBlock_take (x y : List Byte) (n : Nat) (h : y.length ≤ n) :
    xorBlock (x.take n) y = xorBlock x y := by
  induction x generalizing y n with
  | nil => simp [xorBlock]
  | cons a x ih =>
    cases y with
    | nil => simp [xorBlock]
    | cons b y =>
      cases n with
      | zero => simp at h
      | succ n =>
        have := ih y n (by simpa using h)
        simp only [xorBlock, List.take_succ_cons, List.zipWith_cons_cons] at this ⊢
        rw [this]

theorem loop_nil (fuel : Nat) (x : cfb) (dst : List Byte) :
    cfb.loop fuel x dst [] = .ok (x, dst) := by
  cases fuel <;> simp [cfb.loop]

/-! ## The stream loop computes CFB mode -/

theorem blockEncrypt_full (b : BlockFn) (out : List Byte) (prev : Block)
    (hout : out.length = 16) :
    blockEncrypt b out prev.val = .ok (b prev).val := by
  have hp := prev.property
  have h1 : ¬ (prev.val.length < BlockSize) := by simp [BlockSize, hp]
  have h2 : ¬ (out.length < BlockSize) := by simp [BlockSize, hout]
  have h3 : (⟨prev.val.take 16, by simp [hp]⟩ : Block) = prev := by
    apply Subtype.ext
    simp [List.take_of_length_le, hp]
  simp only [blockEncrypt, h1, h2, dite_false, if_false]
  rw [h3]
  simp [BlockSize, List.drop_of_length_le, hout]

theorem XORBytes_block (dst src k : List Byte) (hk : k.length = 16)
    (hsrc : 0 < src.length) (hdst : dst.length = src.length) :
    XORBytes dst src k = .ok (xorBlock src k ++ dst.drop (min src.length 16), min src.length 16) := by
  have h1 : ¬ (min src.length 16 = 0) := by omega
  have h2 : ¬ (min src.length 16 > dst.length) := by omega
  simp only [XORBytes, hk, h1, h2, if_false, xorBlock]

theorem enc_loop (E : BlockFn) : ∀ (fuel : Nat) (x : cfb) (dst src : List Byte) (prev : Block),
    x.b = E → x.decrypt = false → x.outUsed = 16 → x.out.length = 16 → x.next = prev.val →
    dst.length = src.length → src.length ≤ fuel →
    ∃ x', cfb.loop fuel x dst src = .ok (x', cfbEncryptBlocks E fuel prev src)
  | 0, x, dst, src, prev, _, _, _, _, _, hd, hf => by
    have : src = [] := List.length_eq_zero.mp (by omega)
    subst this
    exact ⟨x, by simp [cfb.loop, cfbEncryptBlocks, List.length_eq_zero.mp hd]⟩
  | fuel + 1, x, dst, src, prev, hb, hdec, hu, hout, hnext, hd, hf => by
    by_cases hs : src = []
    · subst hs
      exact ⟨x, by simp [cfb.loop, cfbEncryptBlocks, List.length_eq_zero.mp hd]⟩
    · have hpos : 0 < src.length := List.length_pos.mpr hs
      have hks : (E prev).val.length = 16 := (E prev).property
      have hbe := blockEncrypt_full E x.out prev hout
      have hxor := XORBytes_block dst src (E prev).val hks hpos hd
      have hc : xorBlock (src.take 16) (E prev).val = xorBlock src (E prev).val :=
        xorBlock_take _ _ _ (by omega)
      have hclen : (xorBlock src (E prev).val).length = min src.length 16 := by
        rw [xorBlock_length, hks]
      by_cases hlt : src.length < 16
      · -- last, short segment
        have hn : min src.length 16 = src.length := by omega
        have hdrop : List.drop src.length src = [] := List.drop_length src
        have hdrop2 : List.drop src.length dst = [] := by rw [← hd]; exact List.drop_length dst
        have hne : ¬ src.length = 16 := by omega
        simp [cfb.loop, hpos, hb, hdec, hu, hout, hnext, hbe, hxor, sliceFrom, hn, hdrop,
          hdrop2, loop_nil, cfbEncryptBlocks, hs, hc, hclen, bind, Except.bind, pure, Except.pure,
          hd, hne]
      · have hn : min src.length 16 = 16 := by omega
        have hclen16 : (xorBlock src (E prev).val).length = 16 := by rw [hclen, hn]
        have hrest : (src.drop 16).length ≤ fuel := by simp; omega
        have hd16 : (dst.drop 16).length = (src.drop 16).length := by simp [hd]
        obtain ⟨x', hx'⟩ := enc_loop E fuel
          { b := E, next := xorBlock src (E prev).val, out := (E prev).val, outUsed := 16,
            decrypt := false }
          (dst.drop 16) (src.drop 16) ⟨xorBlock src (E prev).val, hclen16⟩
          rfl rfl rfl hks rfl hd16 hrest
        have h16 : 16 ≤ src.length := by omega
        have hcopy : copy prev.val (xorBlock src (E prev).val ++ dst.drop 16)
            = xorBlock src (E prev).val := by
          simp [copy, prev.property, List.take_append_of_le_length, hclen16,
            List.take_of_length_le, List.drop_of_length_le]
        simp [cfb.loop, hpos, hb, hdec, hu, hout, hnext, hbe, hxor, sliceFrom, hn,
          cfbEncryptBlocks, hs, hc, hclen16, bind, Except.bind, pure, Except.pure,
          hd, h16, hcopy, hx']

theorem dec_loop (E : BlockFn) : ∀ (fuel : Nat) (x : cfb) (dst src : List Byte) (prev : Block),
    x.b = E → x.decrypt = true → x.outUsed = 16 → x.out.length = 16 → x.next = prev.val →
    dst.length = src.length → src.length ≤ fuel →
    ∃ x', cfb.loop fuel x dst src = .ok (x', cfbDecryptBlocks E fuel prev src)
  | 0, x, dst, src, prev, _, _, _, _, _, hd, hf => by
    have : src = [] := List.length_eq_zero.mp (by omega)
    subst this
    exact ⟨x, by simp [cfb.loop, cfbDecryptBlocks, List.length_eq_zero.mp hd]⟩
  | fuel + 1, x, dst, src, prev, hb, hdec, hu, hout, hnext, hd, hf => by
    by_cases hs : src = []
    · subst hs
      exact ⟨x, by simp [cfb.loop, cfbDecryptBlocks, List.length_eq_zero.mp hd]⟩
    · have hpos : 0 < src.length := List.length_pos.mpr hs
      have hks : (E prev).val.length = 16 := (E prev).property
      have hbe := blockEncrypt_full E x.out prev hout
      have hxor := XORBytes_block dst src (E prev).val hks hpos hd
      have hc : xorBlock (src.take 16) (E prev).val = xorBlock src (E prev).val :=
        xorBlock_take _ _ _ (by omega)
      have hclen : (xorBlock src (E prev).val).length = min src.length 16 := by
        rw [xorBlock_length, hks]
      by_cases hlt : src.length < 16
      · have hn : min src.length 16 = src.length := by omega
        have hdrop : List.drop src.length src = [] := List.drop_length src
        have hdrop2 : List.drop src.length dst = [] := by rw [← hd]; exact List.drop_length dst
        have hne : ¬ src.length = 16 := by omega
        have hne2 : ¬ 16 ≤ src.length := by omega
        simp [cfb.loop, hpos, hb, hdec, hu, hout, hnext, hbe, hxor, sliceFrom, hn, hdrop,
          hdrop2, loop_nil, cfbDecryptBlocks, hs, hc, hclen, bind, Except.bind, pure, Except.pure,
          hd, hne, hne2, prev.property]
      · have hn : min src.length 16 = 16 := by omega
        have hrest : (src.drop 16).length ≤ fuel := by simp; omega
        have hd16 : (dst.drop 16).length = (src.drop 16).length := by simp [hd]
        have h16 : 16 ≤ src.length := by omega
        have htake : (src.take 16).length = 16 := by simp; omega
        have hclen16 : (xorBlock src (E prev).val).length = 16 := by rw [hclen, hn]
        obtain ⟨x', hx'⟩ := dec_loop E fuel
          { b := E, next := src.take 16, out := (E prev).val, outUsed := 16,
            decrypt := true }
          (dst.drop 16) (src.drop 16) ⟨src.take 16, htake⟩
          rfl rfl rfl hks rfl hd16 hrest
        have hcopy : copy prev.val src = src.take 16 := by
          simp [copy, prev.property, List.drop_of_length_le, h16]
        simp [cfb.loop, hpos, hb, hdec, hu, hout, hnext, hbe, hxor, sliceFrom, hn,
          cfbDecryptBlocks, hs, hc, bind, Except.bind, pure, Except.pure,
          hd, h16, hcopy, hx', prev.property, hclen16]

theorem cfbEncryptBlocks_length (E : BlockFn) : ∀ (fuel : Nat) (prev : Block) (P : List Byte),
    P.length ≤ fuel → (cfbEncryptBlocks E fuel prev P).length = P.length
  | 0, _, P, h => by
    have : P = [] := List.length_eq_zero.mp (by omega)
    simp [cfbEncryptBlocks, this]
  | fuel + 1, prev, P, h => by
    by_cases hs : P = []
    · simp [cfbEncryptBlocks, hs]
    · have hks : (E prev).val.length = 16 := (E prev).property
      have hclen : (xorBlock (P.take 16) (E prev).val).length = min P.length 16 := by
        rw [xorBlock_length, hks, List.length_take]; omega
      have hpos : 0 < P.length := List.length_pos.mpr hs
      simp only [cfbEncryptBlocks, hs, if_false]
      split
      · rename_i h16
        rw [List.length_append, cfbEncryptBlocks_length E fuel _ _ (by simp; omega), h16]
        simp; omega
      · rename_i h16
        rw [hclen] at h16 ⊢; omega

theorem cfb_roundtrip (E : BlockFn) : ∀ (fuel : Nat) (prev : Block) (P : List Byte),
    P.length ≤ fuel → cfbDecryptBlocks E fuel prev (cfbEncryptBlocks E fuel prev P) = P
  | 0, _, P, h => by
    have : P = [] := List.length_eq_zero.mp (by omega)
    simp [cfbEncryptBlocks, cfbDecryptBlocks, this]
  | fuel + 1, prev, P, h => by
    by_cases hs : P = []
    · simp [cfbEncryptBlocks, cfbDecryptBlocks, hs]
    · have hks : (E prev).val.length = 16 := (E prev).property
      have hclen : (xorBlock (P.take 16) (E prev).val).length = min P.length 16 := by
        rw [xorBlock_length, hks, List.length_take]; omega
      have hpos : 0 < P.length := List.length_pos.mpr hs
      have hcancel : xorBlock (xorBlock (P.take 16) (E prev).val) (E prev).val = P.take 16 :=
        xorBlock_cancel _ _ (by simp [hks])
      have hcne : ¬ xorBlock (P.take 16) (E prev).val = [] := by
        intro h0
        have := congrArg List.length h0
        rw [hclen, List.length_nil] at this; omega
      by_cases h16 : (xorBlock (P.take 16) (E prev).val).length = 16
      · have ih := cfb_roundtrip E fuel ⟨_, h16⟩ (P.drop 16) (by simp; omega)
        have e1 : cfbEncryptBlocks E (fuel + 1) prev P
            = xorBlock (P.take 16) (E prev).val
              ++ cfbEncryptBlocks E fuel ⟨_, h16⟩ (P.drop 16) := by
          simp [cfbEncryptBlocks, hs, h16]
        rw [e1]
        have hne : ¬ (xorBlock (P.take 16) (E prev).val
              ++ cfbEncryptBlocks E fuel ⟨_, h16⟩ (P.drop 16)) = [] := by
          simp [hcne]
        have htk : List.take 16 (xorBlock (P.take 16) (E prev).val
              ++ cfbEncryptBlocks E fuel ⟨_, h16⟩ (P.drop 16))
            = xorBlock (P.take 16) (E prev).val := by
          rw [List.take_append_of_le_length (by omega), List.take_of_length_le (by omega)]
        have hdr : List.drop 16 (xorBlock (P.take 16) (E prev).val
              ++ cfbEncryptBlocks E fuel ⟨_, h16⟩ (P.drop 16))
            = cfbEncryptBlocks E fuel ⟨_, h16⟩ (P.drop 16) := by
          rw [List.drop_append_of_le_length (by omega), List.drop_of_length_le (by omega)]
          simp
        simp only [cfbDecryptBlocks, hne, if_false, htk, hdr, h16, dite_true, hcancel, ih]
        exact List.take_append_drop 16 P
      · have e1 : cfbEncryptBlocks E (fuel + 1) prev P = xorBlock (P.take 16) (E prev).val := by
          simp [cfbEncryptBlocks, hs, h16]
        rw [e1]
        have hlt : P.length < 16 := by rw [hclen] at h16; omega
        have htk : List.take 16 (xorBlock (P.take 16) (E prev).val)
            = xorBlock (P.take 16) (E prev).val :=
          List.take_of_length_le (by rw [hclen]; omega)
        simp only [cfbDecryptBlocks, hcne, if_false, htk, h16, dite_false, hcancel]
        exact List.take_of_length_le (by omega)

/-! ## The operations of the envelope -/

theorem NewCipher_valid (aes : AES) (key : List Byte) (hk : validKeyLength key.length) :
    NewCipher aes key = .ok (aes key) := by
  unfold validKeyLength at hk
  simp only [NewCipher]
  rw [if_pos hk]

theorem NewCipher_invalid (aes : AES) (key : List Byte) (hk : ¬ validKeyLength key.length) :
    NewCipher aes key = .error (.KeySizeError key.length) := by
  unfold validKeyLength at hk
  simp only [NewCipher]
  rw [if_neg hk]

theorem ReadFull_full (rand : Reader) (iv : Block) (h : rand.data.take 16 = iv.val) :
    ReadFull rand (make 16) = (iv.val, 16, none) := by
  have hlen : 16 ≤ rand.data.length := by
    have := congrArg List.length h
    rw [iv.property, List.length_take] at this
    omega
  have hmin : min rand.data.length 16 = 16 := by omega
  simp [ReadFull, make, copy, hmin, h, iv.property, List.take_of_length_le]

theorem XORKeyStream_enc (E : BlockFn) (iv : Block) (P : List Byte) :
    ∃ x', cfb.XORKeyStream
        { b := E, next := iv.val, out := make 16, outUsed := 16, decrypt := false }
        (make P.length) P = .ok (x', cfbEncryptSpec E iv P) := by
  obtain ⟨x', hx'⟩ := enc_loop E P.length
    { b := E, next := iv.val, out := make 16, outUsed := 16, decrypt := false }
    (make P.length) P iv rfl rfl rfl (by simp [make]) rfl (by simp [make]) (le_refl _)
  exact ⟨x', by simp [cfb.XORKeyStream, make, cfbEncryptSpec] at hx' ⊢; exact hx'⟩

theorem XORKeyStream_dec (E : BlockFn) (iv : Block) (C : List Byte) :
    ∃ x', cfb.XORKeyStream
        { b := E, next := iv.val, out := make 16, outUsed := 16, decrypt := true }
        (make C.length) C = .ok (x', cfbDecryptSpec E iv C) := by
  obtain ⟨x', hx'⟩ := dec_loop E C.length
    { b := E, next := iv.val, out := make 16, outUsed := 16, decrypt := true }
    (make C.length) C iv rfl rfl rfl (by simp [make]) rfl (by simp [make]) (le_refl _)
  exact ⟨x', by simp [cfb.XORKeyStream, make, cfbDecryptSpec] at hx' ⊢; exact hx'⟩

theorem newCFB_ok (E : BlockFn) (iv : Block) (d : Bool) :
    newCFB E iv.val d
      = .ok { b := E, next := iv.val, out := make 16, outUsed := 16, decrypt := d } := by
  simp [newCFB, BlockSize, iv.property, copy, make, List.take_of_length_le]

theorem Encrypt_ok (aes : AES) (rand : Reader) (crypt : Crypt) (iv : Block)
    (hk : validKeyLength crypt.Key.length) (hr : rand.data.take 16 = iv.val) :
    crypt.Encrypt aes rand =
      .ok ({ crypt with
              CipherData := iv.val ++ cfbEncryptSpec (aes crypt.Key) iv crypt.UnencryptedData },
           iv.val ++ cfbEncryptSpec (aes crypt.Key) iv crypt.UnencryptedData, none) := by
  obtain ⟨x', hx'⟩ := XORKeyStream_enc (aes crypt.Key) iv crypt.UnencryptedData
  have hrf := ReadFull_full rand iv hr
  have hcopy : copy (make (16 + crypt.UnencryptedData.length)) iv.val
      = iv.val ++ make crypt.UnencryptedData.length := by
    simp [copy, make, iv.property, List.take_of_length_le]
  simp [Crypt.Encrypt, NewCipher_valid aes _ hk, BlockSize, sliceTo, sliceFrom, make] at hrf hcopy hx' ⊢
  simp [hrf, hcopy, NewCFBEncrypter, newCFB_ok, make, iv.property, hx', bind, Except.bind]

theorem Decrypt_ok (aes : AES) (crypt : Crypt) (iv : Block) (payload : List Byte)
    (hk : validKeyLength crypt.Key.length) (hc : crypt.CipherData = iv.val ++ payload) :
    crypt.Decrypt aes =
      .ok ({ crypt with UnencryptedData := cfbDecryptSpec (aes crypt.Key) iv payload },
           cfbDecryptSpec (aes crypt.Key) iv payload, none) := by
  obtain ⟨x', hx'⟩ := XORKeyStream_dec (aes crypt.Key) iv payload
  have hlen : ¬ (crypt.CipherData.length < 16) := by
    simp [hc, iv.property]
  have htake : List.take 16 crypt.CipherData = iv.val := by
    rw [hc, List.take_append_of_le_length (by simp [iv.property]),
      List.take_of_length_le (by simp [iv.property])]
  have hdrop : List.drop 16 crypt.CipherData = payload := by
    rw [hc, List.drop_append_of_le_length (by simp [iv.property]),
      List.drop_of_length_le (by simp [iv.property])]
    simp
  have h16 : 16 ≤ crypt.CipherData.length := by simp [hc, iv.property]
  simp only [Crypt.Decrypt, NewCipher_valid aes _ hk, hlen, if_false, sliceTo, sliceFrom,
    BlockSize, h16, if_true, htake, hdrop, NewCFBDecrypter, newCFB_ok, bind, Except.bind, hx']

theorem Decrypt_short (aes : AES) (crypt : Crypt)
    (hk : validKeyLength crypt.Key.length) (hc : crypt.CipherData.length < 16) :
    crypt.Decrypt aes = .ok (crypt, [], some .InvalidCipherText) := by
  simp [Crypt.Decrypt, NewCipher_valid aes _ hk, BlockSize, hc]

theorem Decrypt_invalid_key (aes : AES) (crypt : Crypt)
    (hk : ¬ validKeyLength crypt.Key.length) :
    crypt.Decrypt aes = .ok (crypt, [], some (.KeySizeError crypt.Key.length)) := by
  simp [Crypt.Decrypt, NewCipher_invalid aes _ hk]

theorem Encrypt_invalid_key (aes : AES) (rand : Reader) (crypt : Crypt)
    (hk : ¬ validKeyLength crypt.Key.length) :
    crypt.Encrypt aes rand = .ok (crypt, [], some (.KeySizeError crypt.Key.length)) := by
  simp [Crypt.Encrypt, NewCipher_invalid aes _ hk]

theorem make_length (n : Nat) : (make n).length = n := by simp [make]

theorem make_take (k n : Nat) : (make (k + n)).take k = make k := by
  simp [make, List.take_replicate]

theorem make_append (a b : Nat) : make a ++ make b = make (a + b) := by
  simp [make]

theorem copy_make (k : Nat) (d : List Byte) (h : d.length ≤ k) :
    copy (make k) d = d ++ make (k - d.length) := by
  simp [copy, make, List.take_of_length_le, h, List.drop_replicate]

theorem copy_make_copy_make (k n : Nat) (d : List Byte) (h : d.length ≤ k) :
    copy (make (k + n)) (copy (make k) d) = copy (make (k + n)) d := by
  have hl : (d ++ make (k - d.length)).length = k := by
    rw [List.length_append, make_length]; omega
  rw [copy_make k d h, copy_make (k + n) _ (by rw [hl]; omega), copy_make (k + n) d (by omega),
    hl, List.append_assoc, make_append]
  congr 2
  omega

theorem Encrypt_rand_fail (aes : AES) (rand : Reader) (crypt : Crypt)
    (hk : validKeyLength crypt.Key.length) (hr : rand.data.length < 16) :
    ∃ err, crypt.Encrypt aes rand =
      .ok ({ crypt with
              CipherData := copy (make (16 + crypt.UnencryptedData.length)) rand.data },
           [], some err) := by
  have hmin : min rand.data.length 16 = rand.data.length := by omega
  have hrf : ∃ err, ReadFull rand (make 16)
      = (copy (make 16) rand.data, rand.data.length, some err) := by
    by_cases he : 0 < rand.data.length ∧ rand.err = .EOF
    · exact ⟨.ErrUnexpectedEOF, by
        simp [ReadFull, make, copy, hmin, he, List.take_of_length_le, hr, Nat.not_le.mpr hr]⟩
    · exact ⟨rand.err, by
        simp [ReadFull, make, copy, hmin, List.take_of_length_le, hr, Nat.not_le.mpr hr]
        intro h1 h2
        exact absurd ⟨h1, h2⟩ he⟩
  obtain ⟨err, herr⟩ := hrf
  refine ⟨err, ?_⟩
  have hcopy := copy_make_copy_make 16 crypt.UnencryptedData.length rand.data (by omega)
  have hsl : sliceTo (make (16 + crypt.UnencryptedData.length)) 16 = .ok (make 16) := by
    simp [sliceTo, make_length, make_take]
  simp only [Crypt.Encrypt, NewCipher_valid aes _ hk, BlockSize, hsl, bind, Except.bind, herr,
    hcopy]

/-! ## Hex codec -/

set_option maxRecDepth 100000 in
theorem fromHexChar_ok_iff : ∀ c : Byte, (fromHexChar c).2 = true ↔ isHexDigit c := by
  decide

set_option maxRecDepth 100000 in
theorem fromHexChar_lowerHex : ∀ c : Byte, fromHexChar (lowerHex c) = fromHexChar c := by
  decide

set_option maxRecDepth 100000 in
theorem hex_byte_roundtrip : ∀ v : Byte,
    fromHexChar (hextable.getD (v >>> 4).val 0) = (v >>> 4, true)
    ∧ fromHexChar (hextable.getD (v &&& 0x0f).val 0) = (v &&& 0x0f, true)
    ∧ (((v >>> 4) <<< 4) ||| (v &&& 0x0f)) = v := by
  decide

theorem Encode_length : ∀ B : List Byte, (Encode B).length = 2 * B.length
  | [] => rfl
  | v :: B => by simp [Encode, Encode_length B]; omega

theorem DecodeString_Encode : ∀ B : List Byte, DecodeString (Encode B) = (B, none)
  | [] => rfl
  | v :: B => by
    obtain ⟨h1, h2, h3⟩ := hex_byte_roundtrip v
    simp only [Encode, DecodeString, h1, h2, DecodeString_Encode B, h3]
    simp

theorem DecodeString_err_iff : ∀ s : GoString,
    (DecodeString s).2 = none ↔ ¬ malformedHex s
  | [] => by simp [DecodeString, malformedHex]
  | [p] => by
    simp only [DecodeString, malformedHex]
    by_cases hp : (fromHexChar p).2 = true <;> simp [hp]
  | p :: q :: s => by
    have ih := DecodeString_err_iff s
    have hp := fromHexChar_ok_iff p
    have hq := fromHexChar_ok_iff q
    simp only [DecodeString, malformedHex] at ih ⊢
    by_cases h1 : (fromHexChar p).2 = true
    · by_cases h2 : (fromHexChar q).2 = true
      · have e1 := hp.mp h1
        have e2 := hq.mp h2
        simp [h1, h2, ih, e1, e2]
        intro _; omega
      · have e2 : ¬ isHexDigit q := fun h => h2 (hq.mpr h)
        simp [h1, h2, e2]
    · have e1 : ¬ isHexDigit p := fun h => h1 (hp.mpr h)
      simp [h1, e1]



theorem DecodeString_map_lowerHex : ∀ s : GoString,
    DecodeString (s.map lowerHex) = DecodeString s
  | [] => rfl
  | [p] => by
    simp only [List.map, DecodeString, fromHexChar_lowerHex]
    by_cases hp : (fromHexChar p).2 = true
    · simp [hp]
    · have : lowerHex p = p := by
        have := (fromHexChar_ok_iff p).not.mp hp
        unfold isHexDigit at this
        unfold lowerHex
        rw [if_neg (fun h => this (Or.inr (Or.inr h)))]
      simp [hp, this]
  | p :: q :: s => by
    have ih := DecodeString_map_lowerHex s
    have keep : ∀ c : Byte, ¬ (fromHexChar c).2 = true → lowerHex c = c := by
      intro c hc
      have := (fromHexChar_ok_iff c).not.mp hc
      unfold isHexDigit at this
      unfold lowerHex
      rw [if_neg (fun h => this (Or.inr (Or.inr h)))]
    simp only [List.map, DecodeString, fromHexChar_lowerHex, ih]
    by_cases h1 : (fromHexChar p).2 = true
    · by_cases h2 : (fromHexChar q).2 = true
      · simp [h1, h2]
      · simp [h1, h2, keep q h2]
    · simp [h1, keep p h1]

theorem DecodeHexString_ok_of_wellformed (s : GoString) (h : ¬ malformedHex s) :
    DecodeHexString s = .ok (DecodeString s).1 := by
  have := (DecodeString_err_iff s).mpr h
  simp [DecodeHexString, this]

theorem DecodeHexString_error_of_malformed (s : GoString) (h : malformedHex s) :
    DecodeHexString s = .error (.InvalidHexString s) := by
  have : ¬ (DecodeString s).2 = none := fun h0 => (DecodeString_err_iff s).mp h0 h
  simp [DecodeHexString, this]

/-! ## Further lemmas on CFB decryption -/

theorem byte_xor_val (a b : Byte) : (a ^^^ b).val = a.val ^^^ b.val := by
  show (a.val ^^^ b.val) % 256 = a.val ^^^ b.val
  exact Nat.mod_eq_of_lt (@Nat.xor_lt_two_pow a.val b.val 8 a.isLt b.isLt)

theorem byte_xor_right_comm (a b k : Byte) : (a ^^^ b) ^^^ k = (a ^^^ k) ^^^ b := by
  apply Fin.ext
  rw [byte_xor_val, byte_xor_val, byte_xor_val, byte_xor_val, Nat.xor_assoc, Nat.xor_assoc,
    Nat.xor_comm b.val k.val]

theorem xorBlock_right_comm : ∀ (x y k : List Byte),
    xorBlock (xorBlock x y) k = xorBlock (xorBlock x k) y
  | [], _, _ => by simp [xorBlock]
  | _ :: _, [], [] => by simp [xorBlock]
  | _ :: _, [], _ :: _ => by simp [xorBlock]
  | _ :: _, _ :: _, [] => by simp [xorBlock]
  | a :: x, b :: y, c :: k => by
    have ih := xorBlock_right_comm x y k
    simp only [xorBlock, List.zipWith_cons_cons] at ih ⊢
    rw [ih, byte_xor_right_comm]

theorem xorBlock_take_left : ∀ (x y : List Byte) (n : Nat),
    (xorBlock x y).take n = xorBlock (x.take n) y
  | [], _, n => by simp [xorBlock]
  | _ :: _, [], n => by simp [xorBlock]
  | a :: x, b :: y, 0 => by simp [xorBlock]
  | a :: x, b :: y, n + 1 => by
    have ih := xorBlock_take_left x y n
    simp only [xorBlock, List.zipWith_cons_cons, List.take_succ_cons] at ih ⊢
    rw [ih]

theorem cfbDecryptBlocks_short (E : BlockFn) (fuel : Nat) (prev : Block) (C : List Byte)
    (h : C.length < 16) :
    cfbDecryptBlocks E (fuel + 1) prev C = xorBlock C (E prev).val := by
  by_cases hs : C = []
  · simp [cfbDecryptBlocks, hs, xorBlock]
  · have ht : C.take 16 = C := List.take_of_length_le (by omega)
    have hne : ¬ C.length = 16 := by omega
    simp [cfbDecryptBlocks, hs, ht, hne]

theorem cfbDecryptBlocks_full (E : BlockFn) (fuel : Nat) (prev b : Block) (C : List Byte)
    (hb : b.val = C.take 16) :
    cfbDecryptBlocks E (fuel + 1) prev C
      = xorBlock (C.take 16) (E prev).val ++ cfbDecryptBlocks E fuel b (C.drop 16) := by
  have hlen : (C.take 16).length = 16 := by rw [← hb]; exact b.property
  have hs : ¬ C = [] := by
    intro h0
    rw [h0] at hlen
    simp at hlen
  have hbe : b = ⟨C.take 16, hlen⟩ := Subtype.ext hb
  simp only [cfbDecryptBlocks, hs, if_false, hlen, dite_true]
  rw [hbe]

theorem cfbDecryptBlocks_length (E : BlockFn) : ∀ (fuel : Nat) (prev : Block) (C : List Byte),
    C.length ≤ fuel → (cfbDecryptBlocks E fuel prev C).length = C.length
  | 0, _, C, h => by
    have : C = [] := List.length_eq_zero.mp (by omega)
    simp [cfbDecryptBlocks, this]
  | fuel + 1, prev, C, h => by
    have hks : (E prev).val.length = 16 := (E prev).property
    by_cases h16 : C.length < 16
    · rw [cfbDecryptBlocks_short E fuel prev C h16, xorBlock_length, hks]
      omega
    · have hlen : (C.take 16).length = 16 := by simp; omega
      rw [cfbDecryptBlocks_full E fuel prev ⟨C.take 16, hlen⟩ C rfl, List.length_append,
        cfbDecryptBlocks_length E fuel _ _ (by simp; omega), xorBlock_length, hks, hlen]
      simp; omega

theorem cfbDecryptBlocks_fuel (E : BlockFn) : ∀ (f g : Nat) (prev : Block) (C : List Byte),
    C.length ≤ f → C.length ≤ g → cfbDecryptBlocks E f prev C = cfbDecryptBlocks E g prev C
  | 0, g, prev, C, hf, _ => by
    have : C = [] := List.length_eq_zero.mp (by omega)
    subst this
    cases g <;> simp [cfbDecryptBlocks]
  | f + 1, 0, prev, C, _, hg => by
    have : C = [] := List.length_eq_zero.mp (by omega)
    subst this
    simp [cfbDecryptBlocks]
  | f + 1, g + 1, prev, C, hf, hg => by
    by_cases h16 : C.length < 16
    · rw [cfbDecryptBlocks_short E f prev C h16, cfbDecryptBlocks_short E g prev C h16]
    · have hlen : (C.take 16).length = 16 := by simp; omega
      rw [cfbDecryptBlocks_full E f prev ⟨C.take 16, hlen⟩ C rfl,
        cfbDecryptBlocks_full E g prev ⟨C.take 16, hlen⟩ C rfl,
        cfbDecryptBlocks_fuel E f g _ _ (by simp; omega) (by simp; omega)]

theorem cfbDecryptBlocks_take (E : BlockFn) : ∀ (fuel : Nat) (prev : Block) (C : List Byte)
    (n : Nat), C.length ≤ fuel →
    cfbDecryptBlocks E fuel prev (C.take n) = (cfbDecryptBlocks E fuel prev C).take n
  | 0, _, C, n, h => by
    have : C = [] := List.length_eq_zero.mp (by omega)
    simp [cfbDecryptBlocks, this]
  | fuel + 1, prev, C, n, h => by
    have hks : (E prev).val.length = 16 := (E prev).property
    by_cases h16 : C.length < 16
    · have ht : (C.take n).length < 16 := by simp; omega
      rw [cfbDecryptBlocks_short E fuel prev C h16, cfbDecryptBlocks_short E fuel prev _ ht,
        xorBlock_take_left]
    · have hlen : (C.take 16).length = 16 := by simp; omega
      rw [cfbDecryptBlocks_full E fuel prev ⟨C.take 16, hlen⟩ C rfl]
      by_cases hn : n < 16
      · have ht : (C.take n).length < 16 := by simp; omega
        rw [cfbDecryptBlocks_short E fuel prev _ ht, List.take_append_of_le_length
          (by rw [xorBlock_length, hks, hlen]; omega), xorBlock_take_left, List.take_take]
        congr 2
        omega
      · have hb : (C.take 16) = (C.take n).take 16 := by
          rw [List.take_take]; congr 1; omega
        rw [cfbDecryptBlocks_full E fuel prev ⟨C.take 16, hlen⟩ (C.take n) hb, ← hb,
          List.drop_take, cfbDecryptBlocks_take E fuel _ (C.drop 16) (n - 16) (by simp; omega)]
        have hx : (xorBlock (C.take 16) (E prev).val).length = 16 := by
          rw [xorBlock_length, hks, hlen]; rfl
        rw [List.take_append_eq_append_take, hx]
        congr 1
        exact (List.take_of_length_le (by rw [hx]; omega)).symm

/-! ## Every call returns -/

theorem ValidateCryptKey_valid (K : GoString) (hK : validKeyLength K.length) :
    ValidateCryptKey K = .ok () := by
  rcases hK with h | h | h <;> simp [ValidateCryptKey, h]

theorem ValidateCryptKey_invalid (K : GoString) (hK : ¬ validKeyLength K.length) :
    ValidateCryptKey K = .error .InvalidKeySize := by
  have h1 : ¬ K.length = 16 := fun h => hK (Or.inl h)
  have h2 : ¬ K.length = 24 := fun h => hK (Or.inr (Or.inl h))
  have h3 : ¬ K.length = 32 := fun h => hK (Or.inr (Or.inr h))
  simp [ValidateCryptKey, h1, h2, h3]

theorem NewCryptFromUnencryptedData_ok (data : List Byte) (K : GoString) (e : Crypt)
    (h : NewCryptFromUnencryptedData data K = .ok e) :
    validKeyLength K.length ∧ e = ⟨data, [], K⟩ := by
  by_cases hK : validKeyLength K.length
  · simp [NewCryptFromUnencryptedData, ValidateCryptKey_valid K hK, bind, Except.bind, pure,
      Except.pure] at h
    exact ⟨hK, h.symm⟩
  · simp [NewCryptFromUnencryptedData, ValidateCryptKey_invalid K hK, bind, Except.bind] at h

theorem NewCryptFromCipherData_ok (data : List Byte) (K : GoString) (e : Crypt)
    (h : NewCryptFromCipherData data K = .ok e) :
    validKeyLength K.length ∧ e = ⟨[], data, K⟩ := by
  by_cases hK : validKeyLength K.length
  · simp [NewCryptFromCipherData, ValidateCryptKey_valid K hK, bind, Except.bind, pure,
      Except.pure] at h
    exact ⟨hK, h.symm⟩
  · simp [NewCryptFromCipherData, ValidateCryptKey_invalid K hK, bind, Except.bind] at h

theorem NewCryptFromHexCipherText_ok (text K : GoString) (e : Crypt)
    (h : NewCryptFromHexCipherText text K = .ok e) :
    validKeyLength K.length ∧ e.Key = K := by
  unfold NewCryptFromHexCipherText at h
  cases hd : DecodeHexString text with
  | error a => simp [hd, bind, Except.bind] at h
  | ok b =>
    simp only [hd, bind, Except.bind] at h
    obtain ⟨hK, he⟩ := NewCryptFromCipherData_ok b K e h
    exact ⟨hK, by rw [he]⟩

theorem ReadFull_short (rand : Reader) (hr : rand.data.length < 16) :
    ∃ err, ReadFull rand (make 16)
      = (copy (make 16) rand.data, rand.data.length, some err) := by
  have hmin : min rand.data.length 16 = rand.data.length := by omega
  by_cases he : 0 < rand.data.length ∧ rand.err = .EOF
  · exact ⟨.ErrUnexpectedEOF, by
      simp [ReadFull, make, copy, hmin, he, List.take_of_length_le, hr, Nat.not_le.mpr hr]⟩
  · exact ⟨rand.err, by
      simp [ReadFull, make, copy, hmin, List.take_of_length_le, hr, Nat.not_le.mpr hr]
      intro h1 h2
      exact absurd ⟨h1, h2⟩ he⟩

theorem Encrypt_rand_err (aes : AES) (rand : Reader) (crypt : Crypt) (crypt' : Crypt)
    (data : List Byte) (err : GoError)
    (hk : validKeyLength crypt.Key.length)
    (h : crypt.Encrypt aes rand = .ok (crypt', data, some err)) :
    rand.data.length < 16 ∧ (ReadFull rand (make BlockSize)).2.2 = some err := by
  by_cases hr : rand.data.length < 16
  · refine ⟨hr, ?_⟩
    obtain ⟨e0, he0⟩ := ReadFull_short rand hr
    have hcopy := copy_make_copy_make 16 crypt.UnencryptedData.length rand.data (by omega)
    have hsl : sliceTo (make (16 + crypt.UnencryptedData.length)) 16 = .ok (make 16) := by
      simp [sliceTo, make_length, make_take]
    simp only [Crypt.Encrypt, NewCipher_valid aes _ hk, BlockSize, hsl, bind, Except.bind, he0,
      hcopy, Except.ok.injEq, Prod.mk.injEq, Option.some.injEq] at h
    simp only [BlockSize, he0, h.2.2]
  · have h16 : 16 ≤ rand.data.length := by omega
    rw [Encrypt_ok aes rand crypt ⟨rand.data.take 16, by simp [h16]⟩ hk rfl] at h
    simp at h

theorem Encrypt_total (aes : AES) (rand : Reader) (crypt : Crypt) :
    ∃ crypt' data err, crypt.Encrypt aes rand = .ok (crypt', data, err) ∧
      crypt'.UnencryptedData = crypt.UnencryptedData ∧ crypt'.Key = crypt.Key ∧
      (err = none → crypt'.CipherData = data ∧
        data.length = 16 + crypt.UnencryptedData.length) := by
  by_cases hk : validKeyLength crypt.Key.length
  · by_cases hr : rand.data.length < 16
    · obtain ⟨e, he⟩ := Encrypt_rand_fail aes rand crypt hk hr
      exact ⟨_, _, _, he, rfl, rfl, fun h => by cases h⟩
    · have h16 : 16 ≤ rand.data.length := by omega
      have hiv : (rand.data.take 16).length = 16 := by simp [h16]
      refine ⟨_, _, _, Encrypt_ok aes rand crypt ⟨rand.data.take 16, hiv⟩ hk rfl, rfl, rfl,
        fun _ => ⟨rfl, ?_⟩⟩
      rw [List.length_append, hiv]
      unfold cfbEncryptSpec
      rw [cfbEncryptBlocks_length _ _ _ _ (le_refl _)]
  · exact ⟨_, _, _, Encrypt_invalid_key aes rand crypt hk, rfl, rfl, fun h => by cases h⟩

theorem Decrypt_total (aes : AES) (crypt : Crypt) :
    ∃ crypt' data err, crypt.Decrypt aes = .ok (crypt', data, err) ∧
      crypt'.CipherData = crypt.CipherData ∧ crypt'.Key = crypt.Key ∧
      (err = none → crypt'.UnencryptedData = data ∧
        data.length = crypt.CipherData.length - 16) := by
  by_cases hk : validKeyLength crypt.Key.length
  · by_cases hc : crypt.CipherData.length < 16
    · exact ⟨_, _, _, Decrypt_short aes crypt hk hc, rfl, rfl, fun h => by cases h⟩
    · have h16 : 16 ≤ crypt.CipherData.length := by omega
      have hiv : (crypt.CipherData.take 16).length = 16 := by simp [h16]
      have hsplit : crypt.CipherData
          = (⟨crypt.CipherData.take 16, hiv⟩ : Block).val ++ crypt.CipherData.drop 16 :=
        (List.take_append_drop 16 _).symm
      refine ⟨_, _, _, Decrypt_ok aes crypt _ _ hk hsplit, rfl, rfl, fun _ => ⟨rfl, ?_⟩⟩
      unfold cfbDecryptSpec
      rw [cfbDecryptBlocks_length _ _ _ _ (le_refl _)]
      simp
  · exact ⟨_, _, _, Decrypt_invalid_key aes crypt hk, rfl, rfl, fun h => by cases h⟩

theorem call_total (aes : AES) (crypt : Crypt) (c : Call) :
    ∃ crypt', crypt.call aes c = .ok crypt' ∧ crypt'.Key = crypt.Key := by
  cases c with
  | Encrypt rand =>
    obtain ⟨c', d, e, h, _, hkey, _⟩ := Encrypt_total aes rand crypt
    exact ⟨c', by simp [Crypt.call, h, Except.map], hkey⟩
  | EncryptToString rand =>
    obtain ⟨c', d, e, h, _, hkey, _⟩ := Encrypt_total aes rand crypt
    refine ⟨c', ?_, hkey⟩
    cases e <;> simp [Crypt.call, Crypt.EncryptToString, h, Except.map, bind, Except.bind]
  | Decrypt =>
    obtain ⟨c', d, e, h, _, hkey, _⟩ := Decrypt_total aes crypt
    exact ⟨c', by simp [Crypt.call, h, Except.map], hkey⟩
  | DecryptToString =>
    obtain ⟨c', d, e, h, _, hkey, _⟩ := Decrypt_total aes crypt
    refine ⟨c', ?_, hkey⟩
    cases e <;> simp [Crypt.call, Crypt.DecryptToString, h, Except.map, bind, Except.bind]

theorem calls_total (aes : AES) : ∀ (cs : List Call) (crypt : Crypt),
    ∃ crypt', Crypt.calls aes crypt cs = .ok crypt' ∧ crypt'.Key = crypt.Key
  | [], crypt => ⟨crypt, rfl, rfl⟩
  | c :: cs, crypt => by
    obtain ⟨c1, h1, hk1⟩ := call_total aes crypt c
    obtain ⟨c2, h2, hk2⟩ := calls_total aes cs c1
    exact ⟨c2, by simp [Crypt.calls, h1, h2], by rw [hk2, hk1]⟩

theorem Decrypt_err (aes : AES) (crypt crypt' : Crypt) (data : List Byte) (err : GoError)
    (hk : validKeyLength crypt.Key.length)
    (h : crypt.Decrypt aes = .ok (crypt', data, some err)) :
    crypt.CipherData.length < 16 ∧ err = .InvalidCipherText := by
  by_cases hc : crypt.CipherData.length < 16
  · rw [Decrypt_short aes crypt hk hc] at h
    simp only [Except.ok.injEq, Prod.mk.injEq, Option.some.injEq] at h
    exact ⟨hc, h.2.2.symm⟩
  · have h16 : 16 ≤ crypt.CipherData.length := by omega
    have hsplit : crypt.CipherData
        = (⟨crypt.CipherData.take 16, by simp [h16]⟩ : Block).val
          ++ crypt.CipherData.drop 16 := (List.take_append_drop 16 _).symm
    rw [Decrypt_ok aes crypt _ _ hk hsplit] at h
    simp at h

theorem cfbDecryptBlocks_nil (E : BlockFn) (fuel : Nat) (prev : Block) :
    cfbDecryptBlocks E fuel prev [] = [] := by
  cases fuel <;> simp [cfbDecryptBlocks]

theorem cfbDecryptSpec_first_block (E : BlockFn) (iv : Block) (C : List Byte)
    (h : C.length ≤ 16) : cfbDecryptSpec E iv C = xorBlock C (E iv).val := by
  unfold cfbDecryptSpec
  cases hn : C.length with
  | zero =>
    have : C = [] := List.length_eq_zero.mp hn
    simp [this, cfbDecryptBlocks, xorBlock]
  | succ k =>
    by_cases h16 : C.length < 16
    · exact cfbDecryptBlocks_short E k iv C h16
    · have hlen : (C.take 16).length = 16 := by simp; omega
      have ht : C.take 16 = C := List.take_of_length_le h
      have hd : C.drop 16 = [] := List.drop_of_length_le h
      rw [cfbDecryptBlocks_full E k iv ⟨C.take 16, hlen⟩ C rfl, hd, cfbDecryptBlocks_nil, ht]
      simp

theorem cfbDecryptSpec_take (E : BlockFn) (iv : Block) (C : List Byte) (n : Nat) :
    cfbDecryptSpec E iv (C.take n) = (cfbDecryptSpec E iv C).take n := by
  unfold cfbDecryptSpec
  rw [← cfbDecryptBlocks_take E C.length iv C n (le_refl _)]
  exact cfbDecryptBlocks_fuel E _ _ iv _ (le_refl _) (by simp)

/-! ## Claims -/

/-- C1. Round trip: for every plaintext `P`, every key `K` of length 16, 24 or
32 and every 16-byte IV delivered by the random source, `Encrypt` on
`NewCryptFromUnencryptedData(P, K)` succeeds with a buffer `C`, and `Decrypt`
on `NewCryptFromCipherData(C, K)` succeeds and returns exactly `P`. -/
theorem C1_round_trip (aes : AES) (P : List Byte) (K : GoString) (iv : Block) (rand : Reader)
    (hK : K.length = 16 ∨ K.length = 24 ∨ K.length = 32)
    (hiv : rand.data.take 16 = iv.val) :
    ∃ e e' C d d',
      NewCryptFromUnencryptedData P K = .ok e ∧
      e.Encrypt aes rand = .ok (e', C, none) ∧
      NewCryptFromCipherData C K = .ok d ∧
      d.Decrypt aes = .ok (d', P, none) := by
  have hv : ValidateCryptKey K = .ok () := by
    rcases hK with h | h | h <;> simp [ValidateCryptKey, h]
  have hrt : cfbDecryptSpec (aes K) iv (cfbEncryptSpec (aes K) iv P) = P := by
    unfold cfbDecryptSpec cfbEncryptSpec
    rw [cfbEncryptBlocks_length (aes K) P.length iv P (le_refl _)]
    exact cfb_roundtrip (aes K) P.length iv P (le_refl _)
  refine ⟨⟨P, [], K⟩, ⟨P, iv.val ++ cfbEncryptSpec (aes K) iv P, K⟩,
    iv.val ++ cfbEncryptSpec (aes K) iv P,
    ⟨[], iv.val ++ cfbEncryptSpec (aes K) iv P, K⟩,
    ⟨P, iv.val ++ cfbEncryptSpec (aes K) iv P, K⟩, ?_, ?_, ?_, ?_⟩
  · simp [NewCryptFromUnencryptedData, hv, bind, Except.bind, pure, Except.pure]
  · exact Encrypt_ok aes rand ⟨P, [], K⟩ iv hK hiv
  · simp [NewCryptFromCipherData, hv, bind, Except.bind, pure, Except.pure]
  · have := Decrypt_ok aes ⟨[], iv.val ++ cfbEncryptSpec (aes K) iv P, K⟩ iv
      (cfbEncryptSpec (aes K) iv P) hK rfl
    rw [hrt] at this
    exact this

/-- Witness of C1: `"hello world"` under `"0123456789abcdef"`, and the empty
plaintext under a 32-byte key. -/
theorem C1_round_trip_witness :
    (key16.length = 16 ∨ key16.length = 24 ∨ key16.length = 32) ∧
    rand0.data.take 16 = iv0.val ∧
    (∃ e e' C d d',
      NewCryptFromUnencryptedData (ascii "hello world") key16 = .ok e ∧
      e.Encrypt toyAES rand0 = .ok (e', C, none) ∧
      NewCryptFromCipherData C key16 = .ok d ∧
      d.Decrypt toyAES = .ok (d', ascii "hello world", none)) ∧
    (∃ e e' C d d',
      NewCryptFromUnencryptedData [] key32 = .ok e ∧
      e.Encrypt toyAES rand0 = .ok (e', C, none) ∧
      NewCryptFromCipherData C key32 = .ok d ∧
      d.Decrypt toyAES = .ok (d', [], none)) :=
  ⟨by decide, by decide,
    C1_round_trip toyAES (ascii "hello world") key16 iv0 rand0 (by decide) (by decide),
    C1_round_trip toyAES [] key32 iv0 rand0 (by decide) (by decide)⟩

/-- C2. Key gating: `ValidateCryptKey`, and with it each of
`NewCryptFromUnencryptedData`, `NewCryptFromPlainText` and
`NewCryptFromCipherData` for any data argument, fails with the invalid-key-size
failure if and only if the key's byte length is not 16, 24 or 32; otherwise
they succeed and the envelope holds the key bytes as given. -/
theorem C2_key_gating (key : GoString) (data : List Byte) :
    (ValidateCryptKey key = .error .InvalidKeySize
      ↔ ¬ (key.length = 16 ∨ key.length = 24 ∨ key.length = 32)) ∧
    (NewCryptFromUnencryptedData data key = .error .InvalidKeySize
      ↔ ¬ (key.length = 16 ∨ key.length = 24 ∨ key.length = 32)) ∧
    (NewCryptFromPlainText data key = .error .InvalidKeySize
      ↔ ¬ (key.length = 16 ∨ key.length = 24 ∨ key.length = 32)) ∧
    (NewCryptFromCipherData data key = .error .InvalidKeySize
      ↔ ¬ (key.length = 16 ∨ key.length = 24 ∨ key.length = 32)) ∧
    ((key.length = 16 ∨ key.length = 24 ∨ key.length = 32) →
      ValidateCryptKey key = .ok () ∧
      NewCryptFromUnencryptedData data key = .ok ⟨data, [], key⟩ ∧
      NewCryptFromPlainText data key = .ok ⟨data, [], key⟩ ∧
      NewCryptFromCipherData data key = .ok ⟨[], data, key⟩) := by
  by_cases hK : key.length = 16 ∨ key.length = 24 ∨ key.length = 32
  · have hv : ValidateCryptKey key = .ok () := by
      rcases hK with h | h | h <;> simp [ValidateCryptKey, h]
    simp [NewCryptFromPlainText, NewCryptFromUnencryptedData, NewCryptFromCipherData, hv, hK,
      bind, Except.bind, pure, Except.pure]
  · have hv : ValidateCryptKey key = .error .InvalidKeySize := by
      have h1 : ¬ key.length = 16 := fun h => hK (Or.inl h)
      have h2 : ¬ key.length = 24 := fun h => hK (Or.inr (Or.inl h))
      have h3 : ¬ key.length = 32 := fun h => hK (Or.inr (Or.inr h))
      simp [ValidateCryptKey, h1, h2, h3]
    simp [NewCryptFromPlainText, NewCryptFromUnencryptedData, NewCryptFromCipherData, hv, hK,
      bind, Except.bind]

/-- Witness of C2: keys of length 15, 17, 23, 25, 31 and 33 are rejected, keys
of length 16, 24 and 32 are accepted and stored as given. -/
theorem C2_key_gating_witness :
    (∀ n ∈ [15, 17, 23, 25, 31, 33],
      ValidateCryptKey (List.replicate n 0x6b) = .error .InvalidKeySize ∧
      NewCryptFromUnencryptedData [1, 2] (List.replicate n 0x6b) = .error .InvalidKeySize ∧
      NewCryptFromPlainText [1, 2] (List.replicate n 0x6b) = .error .InvalidKeySize ∧
      NewCryptFromCipherData [1, 2] (List.replicate n 0x6b) = .error .InvalidKeySize) ∧
    (∀ n ∈ [16, 24, 32],
      ValidateCryptKey (List.replicate n 0x6b) = .ok ()) ∧
    (key16.length = 16 ∨ key16.length = 24 ∨ key16.length = 32) ∧
    ValidateCryptKey key16 = .ok () ∧
    NewCryptFromUnencryptedData [1, 2] key16 = .ok ⟨[1, 2], [], key16⟩ ∧
    NewCryptFromPlainText [1, 2] key16 = .ok ⟨[1, 2], [], key16⟩ ∧
    NewCryptFromCipherData [1, 2] key16 = .ok ⟨[], [1, 2], key16⟩ :=
  ⟨by decide, by decide, by decide, (C2_key_gating key16 [1, 2]).2.2.2.2 (by decide)⟩

/-- C3, counterexample. With a valid key and a random source that delivers
only three bytes, `Encrypt` returns an error and no data, yet `CipherData`,
which held `[9, 9, 9]` before the call, holds a fresh 18-byte buffer after it. -/
theorem C3_counterexample :
    Crypt.Encrypt toyAES ⟨[1, 2, 3], .EOF⟩ ⟨[5, 6], [9, 9, 9], key16⟩
      = .ok (⟨[5, 6], [1, 2, 3, 0, 0, 0, 0, 0, 0, 0, 0, 0, 0, 0, 0, 0, 0, 0], key16⟩, [],
          some .ErrUnexpectedEOF) ∧
    ¬ (∀ (aes : AES) (rand : Reader) (crypt crypt' : Crypt) (data : List Byte) (err : GoError),
        crypt.Encrypt aes rand = .ok (crypt', data, some err) →
        crypt'.UnencryptedData = crypt.UnencryptedData ∧
        crypt'.CipherData = crypt.CipherData ∧ crypt'.Key = crypt.Key) := by
  have h : Crypt.Encrypt toyAES ⟨[1, 2, 3], .EOF⟩ ⟨[5, 6], [9, 9, 9], key16⟩
      = .ok (⟨[5, 6], [1, 2, 3, 0, 0, 0, 0, 0, 0, 0, 0, 0, 0, 0, 0, 0, 0, 0], key16⟩, [],
          some .ErrUnexpectedEOF) := by decide
  refine ⟨h, fun hall => ?_⟩
  have := (hall toyAES ⟨[1, 2, 3], .EOF⟩ ⟨[5, 6], [9, 9, 9], key16⟩ _ _ _ h).2.1
  revert this
  decide

/-- C3, amended. Whenever `Decrypt` returns an error, the three fields of the
envelope are as before the call; whenever `Encrypt` returns an error,
`UnencryptedData` and `Key` are as before the call, and so is `CipherData`
when the key length is not 16, 24 or 32 (the failure of cipher creation). -/
theorem C3_atomicity_amended (aes : AES) (rand : Reader) (crypt : Crypt) :
    (∀ crypt' data err, crypt.Decrypt aes = .ok (crypt', data, some err) → crypt' = crypt) ∧
    (∀ crypt' data err, crypt.Encrypt aes rand = .ok (crypt', data, some err) →
      crypt'.UnencryptedData = crypt.UnencryptedData ∧ crypt'.Key = crypt.Key ∧
      (¬ (crypt.Key.length = 16 ∨ crypt.Key.length = 24 ∨ crypt.Key.length = 32) →
        crypt' = crypt)) := by
  constructor
  · intro crypt' data err h
    by_cases hk : validKeyLength crypt.Key.length
    · by_cases hc : crypt.CipherData.length < 16
      · rw [Decrypt_short aes crypt hk hc] at h
        simp only [Except.ok.injEq, Prod.mk.injEq] at h
        exact h.1.symm
      · have h16 : 16 ≤ crypt.CipherData.length := by omega
        have hsplit : crypt.CipherData
            = (⟨crypt.CipherData.take 16, by simp [h16]⟩ : Block).val
              ++ crypt.CipherData.drop 16 := (List.take_append_drop 16 _).symm
        rw [Decrypt_ok aes crypt _ _ hk hsplit] at h
        simp at h
    · rw [Decrypt_invalid_key aes crypt hk] at h
      simp only [Except.ok.injEq, Prod.mk.injEq] at h
      exact h.1.symm
  · intro crypt' data err h
    by_cases hk : validKeyLength crypt.Key.length
    · by_cases hr : rand.data.length < 16
      · obtain ⟨e, he⟩ := Encrypt_rand_fail aes rand crypt hk hr
        rw [he] at h
        simp only [Except.ok.injEq, Prod.mk.injEq] at h
        rw [← h.1]
        exact ⟨rfl, rfl, fun hn => absurd hk hn⟩
      · have h16 : 16 ≤ rand.data.length := by omega
        rw [Encrypt_ok aes rand crypt ⟨rand.data.take 16, by simp [h16]⟩ hk rfl] at h
        simp at h
    · rw [Encrypt_invalid_key aes rand crypt hk] at h
      simp only [Except.ok.injEq, Prod.mk.injEq] at h
      rw [← h.1]
      exact ⟨rfl, rfl, fun _ => rfl⟩

/-- Witness of C3 as amended: a `Decrypt` that fails on a three-byte
ciphertext and an `Encrypt` that fails at the random source. -/
theorem C3_atomicity_amended_witness :
    Crypt.Decrypt toyAES ⟨[5, 6], [9, 9, 9], key16⟩
      = .ok (⟨[5, 6], [9, 9, 9], key16⟩, [], some .InvalidCipherText) ∧
    (⟨[5, 6], [9, 9, 9], key16⟩ : Crypt) = ⟨[5, 6], [9, 9, 9], key16⟩ ∧
    Crypt.Encrypt toyAES ⟨[1, 2, 3], .EOF⟩ ⟨[5, 6], [9, 9, 9], key16⟩
      = .ok (⟨[5, 6], [1, 2, 3, 0, 0, 0, 0, 0, 0, 0, 0, 0, 0, 0, 0, 0, 0, 0], key16⟩, [],
          some .ErrUnexpectedEOF) ∧
    (⟨[5, 6], [1, 2, 3, 0, 0, 0, 0, 0, 0, 0, 0, 0, 0, 0, 0, 0, 0, 0], key16⟩ : Crypt).UnencryptedData
      = [5, 6] :=
  ⟨by decide,
   (C3_atomicity_amended toyAES rand0 ⟨[5, 6], [9, 9, 9], key16⟩).1
      ⟨[5, 6], [9, 9, 9], key16⟩ [] .InvalidCipherText (by decide),
   by decide,
   ((C3_atomicity_amended toyAES ⟨[1, 2, 3], .EOF⟩ ⟨[5, 6], [9, 9, 9], key16⟩).2
      ⟨[5, 6], [1, 2, 3, 0, 0, 0, 0, 0, 0, 0, 0, 0, 0, 0, 0, 0, 0, 0], key16⟩ [] .ErrUnexpectedEOF
      (by decide)).1⟩

/-- C4, evaluated at a failing input. On an envelope with a valid key and a
three-byte ciphertext `Decrypt` returns the error `Invalid cipher text`, while
`DecryptToString` returns the empty string with a nil error; and on every
envelope the error result of `DecryptToString` is nil whatever `Decrypt`
returns. -/
theorem C4_DecryptToString_drops_error (aes : AES) (crypt : Crypt) :
    Crypt.Decrypt toyAES ⟨[], [9, 9, 9], key16⟩
      = .ok (⟨[], [9, 9, 9], key16⟩, [], some .InvalidCipherText) ∧
    Crypt.DecryptToString toyAES ⟨[], [9, 9, 9], key16⟩
      = .ok (⟨[], [9, 9, 9], key16⟩, [], none) ∧
    (crypt.DecryptToString aes).map (fun r => r.2.2)
      = (crypt.Decrypt aes).map (fun _ => none) := by
  refine ⟨by decide, by decide, ?_⟩
  unfold Crypt.DecryptToString
  cases h : crypt.Decrypt aes with
  | error e => rfl
  | ok r =>
    obtain ⟨c, d, err⟩ := r
    cases err <;> rfl

/-- C5. Short-ciphertext rejection: on every envelope whose key has length 16,
24 or 32 and whose `CipherData` has fewer than 16 bytes, `Decrypt` returns
(without panicking on a slice bound) the error `Invalid cipher text` and no
plaintext, and leaves the envelope as it was. -/
theorem C5_short_ciphertext (aes : AES) (crypt : Crypt)
    (hK : crypt.Key.length = 16 ∨ crypt.Key.length = 24 ∨ crypt.Key.length = 32)
    (hC : crypt.CipherData.length < 16) :
    crypt.Decrypt aes = .ok (crypt, [], some .InvalidCipherText) :=
  Decrypt_short aes crypt hK hC

/-- Witness of C5: a three-byte ciphertext and an empty one. -/
theorem C5_short_ciphertext_witness :
    ((key16.length = 16 ∨ key16.length = 24 ∨ key16.length = 32) ∧
      ([9, 9, 9] : List Byte).length < 16 ∧
      Crypt.Decrypt toyAES ⟨[5, 6], [9, 9, 9], key16⟩
        = .ok (⟨[5, 6], [9, 9, 9], key16⟩, [], some .InvalidCipherText)) ∧
    Crypt.Decrypt toyAES ⟨[], [], key32⟩ = .ok (⟨[], [], key32⟩, [], some .InvalidCipherText) :=
  ⟨⟨by decide, by decide,
      C5_short_ciphertext toyAES ⟨[5, 6], [9, 9, 9], key16⟩ (by decide) (by decide)⟩,
    C5_short_ciphertext toyAES ⟨[], [], key32⟩ (by decide) (by decide)⟩

/-- C6. Length invariant: for every plaintext `P`, every key `K` of length 16,
24 or 32 and every IV delivered by the random source, `Encrypt` on
`NewCryptFromUnencryptedData(P, K)` succeeds and the returned buffer has
length exactly `16 + len(P)`; and whatever the random source does, a buffer
returned with a nil error has that length. -/
theorem C6_length (aes : AES) (P : List Byte) (K : GoString) (iv : Block) (rand : Reader)
    (hK : K.length = 16 ∨ K.length = 24 ∨ K.length = 32)
    (hiv : rand.data.take 16 = iv.val) :
    (∃ e e' C,
      NewCryptFromUnencryptedData P K = .ok e ∧
      e.Encrypt aes rand = .ok (e', C, none) ∧
      C.length = BlockSize + P.length) ∧
    (∀ (rnd : Reader) (e' : Crypt) (C : List Byte),
      Crypt.Encrypt aes rnd ⟨P, [], K⟩ = .ok (e', C, none) →
      C.length = BlockSize + P.length) := by
  have hv : ValidateCryptKey K = .ok () := by
    rcases hK with h | h | h <;> simp [ValidateCryptKey, h]
  have hlen : ∀ b : Block, (b.val ++ cfbEncryptSpec (aes K) b P).length = BlockSize + P.length := by
    intro b
    rw [List.length_append, b.property]
    unfold cfbEncryptSpec
    rw [cfbEncryptBlocks_length (aes K) P.length b P (le_refl _)]
    rfl
  constructor
  · refine ⟨⟨P, [], K⟩, ⟨P, iv.val ++ cfbEncryptSpec (aes K) iv P, K⟩,
      iv.val ++ cfbEncryptSpec (aes K) iv P, ?_, ?_, hlen iv⟩
    · simp [NewCryptFromUnencryptedData, hv, bind, Except.bind, pure, Except.pure]
    · exact Encrypt_ok aes rand ⟨P, [], K⟩ iv hK hiv
  · intro rnd e' C h
    by_cases hr : rnd.data.length < 16
    · obtain ⟨err, he⟩ := Encrypt_rand_fail aes rnd ⟨P, [], K⟩ hK hr
      rw [he] at h
      simp at h
    · have h16 : 16 ≤ rnd.data.length := by omega
      rw [Encrypt_ok aes rnd ⟨P, [], K⟩ ⟨rnd.data.take 16, by simp [h16]⟩ hK rfl] at h
      simp only [Except.ok.injEq, Prod.mk.injEq] at h
      rw [← h.2.1]
      exact hlen ⟨rnd.data.take 16, by simp [h16]⟩

/-- Witness of C6: the empty plaintext under a 32-byte key encrypts to 16
bytes and `"hello world"` under `"0123456789abcdef"` to 27 bytes. -/
theorem C6_length_witness :
    (key16.length = 16 ∨ key16.length = 24 ∨ key16.length = 32) ∧
    rand0.data.take 16 = iv0.val ∧
    (∃ e e' C,
      NewCryptFromUnencryptedData (ascii "hello world") key16 = .ok e ∧
      e.Encrypt toyAES rand0 = .ok (e', C, none) ∧
      C.length = BlockSize + (ascii "hello world").length) ∧
    BlockSize + (ascii "hello world").length = 27 ∧
    (∃ e e' C,
      NewCryptFromUnencryptedData [] key32 = .ok e ∧
      e.Encrypt toyAES rand0 = .ok (e', C, none) ∧
      C.length = BlockSize + ([] : List Byte).length) ∧
    BlockSize + ([] : List Byte).length = 16 :=
  ⟨by decide, by decide,
    (C6_length toyAES (ascii "hello world") key16 iv0 rand0 (by decide) (by decide)).1,
    by decide,
    (C6_length toyAES [] key32 iv0 rand0 (by decide) (by decide)).1,
    by decide⟩

/-- C7. Ciphertext layout: for every plaintext `P`, valid key `K` and 16-byte
IV read from the random source, `Encrypt` succeeds; the first 16 bytes of the
returned buffer are that IV, the remaining bytes are the CFB-mode encryption
of `P` under `K` seeded with that IV, and the returned buffer is the
envelope's `CipherData` after the call. -/
theorem C7_layout (aes : AES) (P : List Byte) (K : GoString) (iv : Block) (rand : Reader)
    (hK : K.length = 16 ∨ K.length = 24 ∨ K.length = 32)
    (hiv : rand.data.take 16 = iv.val) :
    ∃ e e' C,
      NewCryptFromUnencryptedData P K = .ok e ∧
      e.Encrypt aes rand = .ok (e', C, none) ∧
      C.take 16 = iv.val ∧
      C.drop 16 = cfbEncryptSpec (aes K) iv P ∧
      e'.CipherData = C := by
  have hv : ValidateCryptKey K = .ok () := by
    rcases hK with h | h | h <;> simp [ValidateCryptKey, h]
  refine ⟨⟨P, [], K⟩, ⟨P, iv.val ++ cfbEncryptSpec (aes K) iv P, K⟩,
    iv.val ++ cfbEncryptSpec (aes K) iv P, ?_, ?_, ?_, ?_, rfl⟩
  · simp [NewCryptFromUnencryptedData, hv, bind, Except.bind, pure, Except.pure]
  · exact Encrypt_ok aes rand ⟨P, [], K⟩ iv hK hiv
  · rw [List.take_append_of_le_length (by simp [iv.property]),
      List.take_of_length_le (by simp [iv.property])]
  · rw [List.drop_append_of_le_length (by simp [iv.property]),
      List.drop_of_length_le (by simp [iv.property])]
    simp

/-- Witness of C7: `"hello world"` under `"0123456789abcdef"` with the IV
`iv0`. -/
theorem C7_layout_witness :
    (key16.length = 16 ∨ key16.length = 24 ∨ key16.length = 32) ∧
    rand0.data.take 16 = iv0.val ∧
    ∃ e e' C,
      NewCryptFromUnencryptedData (ascii "hello world") key16 = .ok e ∧
      e.Encrypt toyAES rand0 = .ok (e', C, none) ∧
      C.take 16 = iv0.val ∧
      C.drop 16 = cfbEncryptSpec (toyAES key16) iv0 (ascii "hello world") ∧
      e'.CipherData = C :=
  ⟨by decide, by decide,
    C7_layout toyAES (ascii "hello world") key16 iv0 rand0 (by decide) (by decide)⟩

/-- C8. Malformed hex rejection: `DecodeHexString(s)` fails with the
malformed-hex panic if and only if `s` has odd length or holds a character
outside `[0-9a-fA-F]`; on every other string it succeeds; two strings that
spell the same hex digits in different cases decode to the same bytes; and
`NewCryptFromHexCipherText(s, key)` fails with that same panic for every
malformed `s`, whatever the key. -/
theorem C8_malformed_hex (s key : GoString) :
    (DecodeHexString s = .error (.InvalidHexString s)
      ↔ (s.length % 2 = 1 ∨ ∃ c ∈ s, ¬ isHexDigit c)) ∧
    (¬ (s.length % 2 = 1 ∨ ∃ c ∈ s, ¬ isHexDigit c) → ∃ b, DecodeHexString s = .ok b) ∧
    (∀ t : GoString, t.map lowerHex = s.map lowerHex →
      ¬ (s.length % 2 = 1 ∨ ∃ c ∈ s, ¬ isHexDigit c) →
      DecodeHexString t = DecodeHexString s) ∧
    ((s.length % 2 = 1 ∨ ∃ c ∈ s, ¬ isHexDigit c) →
      NewCryptFromHexCipherText s key = .error (.InvalidHexString s)) := by
  refine ⟨⟨fun h => ?_, fun h => DecodeHexString_error_of_malformed s h⟩,
    fun h => ⟨_, DecodeHexString_ok_of_wellformed s h⟩, fun t ht h => ?_, fun h => ?_⟩
  · by_contra hn
    rw [DecodeHexString_ok_of_wellformed s hn] at h
    cases h
  · have hst : DecodeString t = DecodeString s := by
      rw [← DecodeString_map_lowerHex t, ht, DecodeString_map_lowerHex s]
    have hs : (DecodeString s).2 = none := (DecodeString_err_iff s).mpr h
    have ht2 : (DecodeString t).2 = none := by rw [hst]; exact hs
    simp only [DecodeHexString, hs, ht2, hst, ne_eq, not_true_eq_false, if_false]
  · simp [NewCryptFromHexCipherText, DecodeHexString_error_of_malformed s h, bind, Except.bind]

/-- Witness of C8: `"zz"` and `"abc"` are rejected, alone and in
`NewCryptFromHexCipherText`; `"aBcD01"` and `"abcd01"` decode to the same three
bytes. -/
theorem C8_malformed_hex_witness :
    DecodeHexString (ascii "zz") = .error (.InvalidHexString (ascii "zz")) ∧
    DecodeHexString (ascii "abc") = .error (.InvalidHexString (ascii "abc")) ∧
    NewCryptFromHexCipherText (ascii "zz") key16 = .error (.InvalidHexString (ascii "zz")) ∧
    NewCryptFromHexCipherText (ascii "abc") [] = .error (.InvalidHexString (ascii "abc")) ∧
    DecodeHexString (ascii "aBcD01") = .ok [0xab, 0xcd, 0x01] ∧
    DecodeHexString (ascii "aBcD01") = DecodeHexString (ascii "abcd01") :=
  ⟨(C8_malformed_hex (ascii "zz") key16).1.mpr (by decide),
   (C8_malformed_hex (ascii "abc") key16).1.mpr (by decide),
   (C8_malformed_hex (ascii "zz") key16).2.2.2 (by decide),
   (C8_malformed_hex (ascii "abc") []).2.2.2 (by decide),
   by decide,
   (C8_malformed_hex (ascii "abcd01") key16).2.2.1 (ascii "aBcD01") (by decide) (by decide)⟩

/-- C9. Hex round trip: for every byte sequence `B`, `hex.EncodeToString(B)`
has exactly `2 * len(B)` characters, and `DecodeHexString` applied to it
succeeds and returns exactly `B`. -/
theorem C9_hex_round_trip (B : List Byte) :
    (EncodeToString B).length = 2 * B.length ∧
    DecodeHexString (EncodeToString B) = .ok B := by
  refine ⟨Encode_length B, ?_⟩
  simp [DecodeHexString, EncodeToString, DecodeString_Encode]

/-- C10. Text-channel round trip: for every string `s`, every key `K` of
length 16, 24 or 32 and every IV delivered by the random source,
`EncryptToString` on `NewCryptFromPlainText(s, K)` returns a well-formed hex
string `h`, `NewCryptFromHexCipherText(h, K)` succeeds, and `DecryptToString`
on it returns exactly `s` with a nil error. -/
theorem C10_text_round_trip (aes : AES) (s K : GoString) (iv : Block) (rand : Reader)
    (hK : K.length = 16 ∨ K.length = 24 ∨ K.length = 32)
    (hiv : rand.data.take 16 = iv.val) :
    ∃ e e' h d d',
      NewCryptFromPlainText s K = .ok e ∧
      e.EncryptToString aes rand = .ok (e', h, none) ∧
      ¬ (h.length % 2 = 1 ∨ ∃ c ∈ h, ¬ isHexDigit c) ∧
      NewCryptFromHexCipherText h K = .ok d ∧
      d.DecryptToString aes = .ok (d', s, none) := by
  have hv : ValidateCryptKey K = .ok () := by
    rcases hK with h | h | h <;> simp [ValidateCryptKey, h]
  have hrt : cfbDecryptSpec (aes K) iv (cfbEncryptSpec (aes K) iv s) = s := by
    unfold cfbDecryptSpec cfbEncryptSpec
    rw [cfbEncryptBlocks_length (aes K) s.length iv s (le_refl _)]
    exact cfb_roundtrip (aes K) s.length iv s (le_refl _)
  have henc := Encrypt_ok aes rand ⟨s, [], K⟩ iv hK hiv
  have hdec := Decrypt_ok aes ⟨[], iv.val ++ cfbEncryptSpec (aes K) iv s, K⟩ iv
    (cfbEncryptSpec (aes K) iv s) hK rfl
  rw [hrt] at hdec
  have hwf : ¬ malformedHex (EncodeToString (iv.val ++ cfbEncryptSpec (aes K) iv s)) := by
    apply (DecodeString_err_iff _).mp
    simp [EncodeToString, DecodeString_Encode]
  have hhex : DecodeHexString (EncodeToString (iv.val ++ cfbEncryptSpec (aes K) iv s))
      = .ok (iv.val ++ cfbEncryptSpec (aes K) iv s) := by
    simp [DecodeHexString, EncodeToString, DecodeString_Encode]
  refine ⟨⟨s, [], K⟩, ⟨s, iv.val ++ cfbEncryptSpec (aes K) iv s, K⟩,
    EncodeToString (iv.val ++ cfbEncryptSpec (aes K) iv s),
    ⟨[], iv.val ++ cfbEncryptSpec (aes K) iv s, K⟩,
    ⟨s, iv.val ++ cfbEncryptSpec (aes K) iv s, K⟩, ?_, ?_, hwf, ?_, ?_⟩
  · simp [NewCryptFromPlainText, NewCryptFromUnencryptedData, hv, bind, Except.bind, pure,
      Except.pure]
  · simp only [Crypt.EncryptToString, henc, bind, Except.bind]
  · simp only [NewCryptFromHexCipherText, hhex, NewCryptFromCipherData, hv, bind, Except.bind,
      pure, Except.pure]
  · simp only [Crypt.DecryptToString, hdec, bind, Except.bind]

/-- Witness of C10: `"hello world"` under `"0123456789abcdef"`. -/
theorem C10_text_round_trip_witness :
    (key16.length = 16 ∨ key16.length = 24 ∨ key16.length = 32) ∧
    rand0.data.take 16 = iv0.val ∧
    ∃ e e' h d d',
      NewCryptFromPlainText (ascii "hello world") key16 = .ok e ∧
      e.EncryptToString toyAES rand0 = .ok (e', h, none) ∧
      ¬ (h.length % 2 = 1 ∨ ∃ c ∈ h, ¬ isHexDigit c) ∧
      NewCryptFromHexCipherText h key16 = .ok d ∧
      d.DecryptToString toyAES = .ok (d', ascii "hello world", none) :=
  ⟨by decide, by decide,
    C10_text_round_trip toyAES (ascii "hello world") key16 iv0 rand0 (by decide) (by decide)⟩

/-- C11. `EncryptToString` is `Encrypt` followed by hex encoding: on every
envelope and with every random source `Encrypt` returns; when it returns an
error `EncryptToString` returns that error with the empty string, and when it
returns a buffer with a nil error `EncryptToString` returns the hex encoding
of exactly that buffer, a string of `2 * (16 + len(plaintext))` characters,
with a nil error. The envelope after the call is the same in both. -/
theorem C11_EncryptToString (aes : AES) (rand : Reader) (crypt : Crypt) :
    ∃ crypt' data err,
      crypt.Encrypt aes rand = .ok (crypt', data, err) ∧
      (∀ e, err = some e → crypt.EncryptToString aes rand = .ok (crypt', [], some e)) ∧
      (err = none →
        crypt.EncryptToString aes rand = .ok (crypt', EncodeToString data, none) ∧
        (EncodeToString data).length = 2 * (BlockSize + crypt.UnencryptedData.length)) := by
  obtain ⟨crypt', data, err, h, _, _, hlen⟩ := Encrypt_total aes rand crypt
  refine ⟨crypt', data, err, h, fun e he => ?_, fun he => ⟨?_, ?_⟩⟩
  · subst he
    simp only [Crypt.EncryptToString, h, bind, Except.bind]
  · subst he
    simp only [Crypt.EncryptToString, h, bind, Except.bind]
  · rw [EncodeToString, Encode_length, (hlen he).2]
    rfl

/-- Witness of C11: a call that succeeds, with its 54 hex characters for the
11-byte plaintext `"hello world"`, and a call that fails at the random source. -/
theorem C11_EncryptToString_witness :
    (∃ crypt' data,
      Crypt.Encrypt toyAES rand0 ⟨ascii "hello world", [], key16⟩ = .ok (crypt', data, none) ∧
      Crypt.EncryptToString toyAES rand0 ⟨ascii "hello world", [], key16⟩
        = .ok (crypt', EncodeToString data, none) ∧
      (EncodeToString data).length = 54) ∧
    (∃ crypt',
      Crypt.Encrypt toyAES ⟨[1, 2, 3], .EOF⟩ ⟨[5, 6], [9, 9, 9], key16⟩
        = .ok (crypt', [], some .ErrUnexpectedEOF) ∧
      Crypt.EncryptToString toyAES ⟨[1, 2, 3], .EOF⟩ ⟨[5, 6], [9, 9, 9], key16⟩
        = .ok (crypt', [], some .ErrUnexpectedEOF)) := by
  constructor
  · obtain ⟨crypt', data, err, h, _, hok⟩ :=
      C11_EncryptToString toyAES rand0 ⟨ascii "hello world", [], key16⟩
    have he : err = none := by
      have h2 := Encrypt_ok toyAES rand0 ⟨ascii "hello world", [], key16⟩ iv0
        (by decide) (by decide)
      rw [h2] at h
      simp only [Except.ok.injEq, Prod.mk.injEq] at h
      exact h.2.2.symm
    subst he
    exact ⟨crypt', data, h, (hok rfl).1, (hok rfl).2⟩
  · obtain ⟨crypt', data, err, h, herr, _⟩ :=
      C11_EncryptToString toyAES ⟨[1, 2, 3], .EOF⟩ ⟨[5, 6], [9, 9, 9], key16⟩
    have h2 : Crypt.Encrypt toyAES ⟨[1, 2, 3], .EOF⟩ ⟨[5, 6], [9, 9, 9], key16⟩
        = .ok (⟨[5, 6], [1, 2, 3, 0, 0, 0, 0, 0, 0, 0, 0, 0, 0, 0, 0, 0, 0, 0], key16⟩, [],
          some .ErrUnexpectedEOF) := by decide
    rw [h2] at h
    simp only [Except.ok.injEq, Prod.mk.injEq] at h
    obtain ⟨hc, hd, he⟩ := h
    subst hc hd
    exact ⟨_, h2, herr _ he.symm⟩

/-- C12. Constructor postconditions: for every key `K` of length 16, 24 or 32,
`NewCryptFromUnencryptedData(d, K)` returns the envelope with
`UnencryptedData = d`, `CipherData` empty and `Key` the bytes of `K`;
`NewCryptFromCipherData(c, K)` returns the envelope with `CipherData = c`,
`UnencryptedData` empty and `Key` the bytes of `K`; `NewCryptFromPlainText(s,
K)` equals `NewCryptFromUnencryptedData` on the bytes of `s`; and for every
well-formed hex string `h`, `NewCryptFromHexCipherText(h, K)` equals
`NewCryptFromCipherData` on the decoded bytes of `h`. -/
theorem C12_constructors (d c : List Byte) (s h K : GoString)
    (hK : K.length = 16 ∨ K.length = 24 ∨ K.length = 32) :
    NewCryptFromUnencryptedData d K = .ok ⟨d, [], K⟩ ∧
    NewCryptFromCipherData c K = .ok ⟨[], c, K⟩ ∧
    NewCryptFromPlainText s K = NewCryptFromUnencryptedData s K ∧
    (¬ (h.length % 2 = 1 ∨ ∃ x ∈ h, ¬ isHexDigit x) →
      ∃ b, DecodeHexString h = .ok b ∧
        NewCryptFromHexCipherText h K = NewCryptFromCipherData b K ∧
        NewCryptFromHexCipherText h K = .ok ⟨[], b, K⟩) := by
  have hv := ValidateCryptKey_valid K hK
  refine ⟨?_, ?_, rfl, fun hw => ⟨(DecodeString h).1, ?_, ?_, ?_⟩⟩
  · simp [NewCryptFromUnencryptedData, hv, bind, Except.bind, pure, Except.pure]
  · simp [NewCryptFromCipherData, hv, bind, Except.bind, pure, Except.pure]
  · exact DecodeHexString_ok_of_wellformed h hw
  · simp only [NewCryptFromHexCipherText, DecodeHexString_ok_of_wellformed h hw, bind,
      Except.bind]
  · simp only [NewCryptFromHexCipherText, DecodeHexString_ok_of_wellformed h hw, bind,
      Except.bind, NewCryptFromCipherData, hv, pure, Except.pure]

/-- Witness of C12: the four constructors on `"0123456789abcdef"`, the hex
text being `"aBcD01"`. -/
theorem C12_constructors_witness :
    (key16.length = 16 ∨ key16.length = 24 ∨ key16.length = 32) ∧
    ¬ ((ascii "aBcD01").length % 2 = 1 ∨ ∃ x ∈ ascii "aBcD01", ¬ isHexDigit x) ∧
    NewCryptFromUnencryptedData [1, 2] key16 = .ok ⟨[1, 2], [], key16⟩ ∧
    NewCryptFromCipherData [3, 4] key16 = .ok ⟨[], [3, 4], key16⟩ ∧
    NewCryptFromPlainText (ascii "hi") key16 = NewCryptFromUnencryptedData (ascii "hi") key16 ∧
    (∃ b, DecodeHexString (ascii "aBcD01") = .ok b ∧
        NewCryptFromHexCipherText (ascii "aBcD01") key16 = NewCryptFromCipherData b key16 ∧
        NewCryptFromHexCipherText (ascii "aBcD01") key16 = .ok ⟨[], b, key16⟩) ∧
    NewCryptFromHexCipherText (ascii "aBcD01") key16 = .ok ⟨[], [0xab, 0xcd, 0x01], key16⟩ :=
  ⟨by decide, by decide,
    (C12_constructors [1, 2] [3, 4] (ascii "hi") (ascii "aBcD01") key16 (by decide)).1,
    (C12_constructors [1, 2] [3, 4] (ascii "hi") (ascii "aBcD01") key16 (by decide)).2.1,
    (C12_constructors [1, 2] [3, 4] (ascii "hi") (ascii "aBcD01") key16 (by decide)).2.2.1,
    (C12_constructors [1, 2] [3, 4] (ascii "hi") (ascii "aBcD01") key16 (by decide)).2.2.2
      (by decide),
    by decide⟩

/-- C13. Key-length invariant: every envelope returned by one of the four
constructors has a `Key` of length 16, 24 or 32; every sequence of `Encrypt`,
`EncryptToString`, `Decrypt` and `DecryptToString` calls on it returns and
leaves `Key` as it was; and on the envelope so reached the key check of cipher
creation never fails: an error of `Encrypt` is the error of `io.ReadFull` on a
random source that delivers fewer than 16 bytes, an error of `Decrypt` is
`Invalid cipher text` on a ciphertext of fewer than 16 bytes. -/
theorem C13_key_length_invariant (aes : AES) (data : List Byte) (text K : GoString)
    (e : Crypt) (calls : List Call)
    (hctor : NewCryptFromUnencryptedData data K = .ok e ∨ NewCryptFromPlainText text K = .ok e ∨
      NewCryptFromCipherData data K = .ok e ∨ NewCryptFromHexCipherText text K = .ok e) :
    (e.Key.length = 16 ∨ e.Key.length = 24 ∨ e.Key.length = 32) ∧
    ∃ e', Crypt.calls aes e calls = .ok e' ∧
      e'.Key = e.Key ∧
      (e'.Key.length = 16 ∨ e'.Key.length = 24 ∨ e'.Key.length = 32) ∧
      (∀ (rand : Reader) (c : Crypt) (d : List Byte) (err : GoError),
        e'.Encrypt aes rand = .ok (c, d, some err) →
        rand.data.length < 16 ∧ (ReadFull rand (make BlockSize)).2.2 = some err) ∧
      (∀ (c : Crypt) (d : List Byte) (err : GoError),
        e'.Decrypt aes = .ok (c, d, some err) →
        e'.CipherData.length < 16 ∧ err = .InvalidCipherText) := by
  have hkey : validKeyLength e.Key.length := by
    rcases hctor with h | h | h | h
    · obtain ⟨hK, he⟩ := NewCryptFromUnencryptedData_ok data K e h
      rw [he]; exact hK
    · obtain ⟨hK, he⟩ := NewCryptFromUnencryptedData_ok text K e h
      rw [he]; exact hK
    · obtain ⟨hK, he⟩ := NewCryptFromCipherData_ok data K e h
      rw [he]; exact hK
    · obtain ⟨hK, he⟩ := NewCryptFromHexCipherText_ok text K e h
      rw [he]; exact hK
  obtain ⟨e', hrun, hk'⟩ := calls_total aes calls e
  have hkey' : validKeyLength e'.Key.length := by rw [hk']; exact hkey
  exact ⟨hkey, e', hrun, hk', hkey',
    fun rand c d err h => Encrypt_rand_err aes rand e' c d err hkey' h,
    fun c d err h => Decrypt_err aes e' c d err hkey' h⟩

/-- Witness of C13: an envelope built from `"hello world"`, taken through
`Encrypt`, `DecryptToString`, a failing `EncryptToString` and `Decrypt`. -/
theorem C13_key_length_invariant_witness :
    NewCryptFromPlainText (ascii "hello world") key16 = .ok ⟨ascii "hello world", [], key16⟩ ∧
    (key16.length = 16 ∨ key16.length = 24 ∨ key16.length = 32) ∧
    ∃ e', Crypt.calls toyAES ⟨ascii "hello world", [], key16⟩
        [.Encrypt rand0, .DecryptToString, .EncryptToString ⟨[1, 2, 3], .EOF⟩, .Decrypt]
        = .ok e' ∧
      e'.Key = key16 ∧
      (e'.Key.length = 16 ∨ e'.Key.length = 24 ∨ e'.Key.length = 32) ∧
      (∀ (rand : Reader) (c : Crypt) (d : List Byte) (err : GoError),
        e'.Encrypt toyAES rand = .ok (c, d, some err) →
        rand.data.length < 16 ∧ (ReadFull rand (make BlockSize)).2.2 = some err) ∧
      (∀ (c : Crypt) (d : List Byte) (err : GoError),
        e'.Decrypt toyAES = .ok (c, d, some err) →
        e'.CipherData.length < 16 ∧ err = .InvalidCipherText) :=
  ⟨by decide,
   (C13_key_length_invariant toyAES [] (ascii "hello world") key16
      ⟨ascii "hello world", [], key16⟩
      [.Encrypt rand0, .DecryptToString, .EncryptToString ⟨[1, 2, 3], .EOF⟩, .Decrypt]
      (Or.inr (Or.inl (by decide)))).1,
   (C13_key_length_invariant toyAES [] (ascii "hello world") key16
      ⟨ascii "hello world", [], key16⟩
      [.Encrypt rand0, .DecryptToString, .EncryptToString ⟨[1, 2, 3], .EOF⟩, .Decrypt]
      (Or.inr (Or.inl (by decide)))).2⟩

/-- C14. The ciphertext as a function of the IV: for every plaintext `P` and
valid key `K`, two `Encrypt` calls on envelopes holding `P` and `K` whose
random sources deliver the IVs `iv1` and `iv2` both succeed; the two
ciphertexts differ when the IVs differ, and are equal when the IVs are
equal, whatever else the random sources and the envelopes hold. -/
theorem C14_iv_determines_ciphertext (aes : AES) (P : List Byte) (K : GoString)
    (crypt1 crypt2 : Crypt) (iv1 iv2 : Block) (rand1 rand2 : Reader)
    (hK : K.length = 16 ∨ K.length = 24 ∨ K.length = 32)
    (hP1 : crypt1.UnencryptedData = P) (hK1 : crypt1.Key = K)
    (hP2 : crypt2.UnencryptedData = P) (hK2 : crypt2.Key = K)
    (h1 : rand1.data.take 16 = iv1.val) (h2 : rand2.data.take 16 = iv2.val) :
    ∃ e1 C1 e2 C2,
      crypt1.Encrypt aes rand1 = .ok (e1, C1, none) ∧
      crypt2.Encrypt aes rand2 = .ok (e2, C2, none) ∧
      (iv1 ≠ iv2 → C1 ≠ C2) ∧
      (iv1 = iv2 → C1 = C2) := by
  have hk1 : validKeyLength crypt1.Key.length := by rw [hK1]; exact hK
  have hk2 : validKeyLength crypt2.Key.length := by rw [hK2]; exact hK
  refine ⟨_, _, _, _, Encrypt_ok aes rand1 crypt1 iv1 hk1 h1,
    Encrypt_ok aes rand2 crypt2 iv2 hk2 h2, fun hne heq => hne ?_, fun heq => ?_⟩
  · have := congrArg (List.take 16) heq
    rw [List.take_append_of_le_length (by simp [iv1.property]),
      List.take_append_of_le_length (by simp [iv2.property]),
      List.take_of_length_le (by simp [iv1.property]),
      List.take_of_length_le (by simp [iv2.property])] at this
    exact Subtype.ext this
  · rw [hP1, hK1, hP2, hK2, heq]

/-- Witness of C14: `"hello world"` under `"0123456789abcdef"`, encrypted once
with the IV `iv0` and once with its reverse. -/
theorem C14_iv_determines_ciphertext_witness :
    (key16.length = 16 ∨ key16.length = 24 ∨ key16.length = 32) ∧
    rand0.data.take 16 = iv0.val ∧
    (⟨iv0.val.reverse, .EOF⟩ : Reader).data.take 16 = iv0.val.reverse ∧
    ∃ e1 C1 e2 C2,
      Crypt.Encrypt toyAES rand0 ⟨ascii "hello world", [], key16⟩ = .ok (e1, C1, none) ∧
      Crypt.Encrypt toyAES ⟨iv0.val.reverse, .EOF⟩ ⟨ascii "hello world", [7], key16⟩
        = .ok (e2, C2, none) ∧
      (iv0 ≠ (⟨iv0.val.reverse, by decide⟩ : Block) → C1 ≠ C2) ∧
      (iv0 = (⟨iv0.val.reverse, by decide⟩ : Block) → C1 = C2) :=
  ⟨by decide, by decide, by decide,
    C14_iv_determines_ciphertext toyAES (ascii "hello world") key16
      ⟨ascii "hello world", [], key16⟩ ⟨ascii "hello world", [7], key16⟩
      iv0 ⟨iv0.val.reverse, by decide⟩ rand0 ⟨iv0.val.reverse, .EOF⟩
      (by decide) rfl rfl rfl rfl (by decide) (by decide)⟩

/-- C15. No integrity check on decryption: for every key `K` of length 16, 24
or 32 and every byte sequence `C` of at least 16 bytes, `Decrypt` on
`NewCryptFromCipherData(C, K)` succeeds with a nil error and returns a
plaintext of exactly `len(C) - 16` bytes; and on every envelope with such a
key `Decrypt` returns an error if and only if its ciphertext has fewer than 16
bytes. -/
theorem C15_no_integrity_check (aes : AES) (C : List Byte) (K : GoString) (crypt : Crypt)
    (hK : K.length = 16 ∨ K.length = 24 ∨ K.length = 32)
    (hkey : crypt.Key = K) :
    (16 ≤ C.length →
      ∃ d d' P, NewCryptFromCipherData C K = .ok d ∧
        d.Decrypt aes = .ok (d', P, none) ∧ P.length = C.length - 16) ∧
    ((∃ c P err, crypt.Decrypt aes = .ok (c, P, some err)) ↔ crypt.CipherData.length < 16) := by
  have hk : validKeyLength crypt.Key.length := by rw [hkey]; exact hK
  constructor
  · intro h16
    have hiv : (C.take 16).length = 16 := by simp [h16]
    have hsplit : (⟨[], C, K⟩ : Crypt).CipherData
        = (⟨C.take 16, hiv⟩ : Block).val ++ C.drop 16 := (List.take_append_drop 16 _).symm
    refine ⟨⟨[], C, K⟩, _, _, ?_, Decrypt_ok aes ⟨[], C, K⟩ _ _ hK hsplit, ?_⟩
    · simp [NewCryptFromCipherData, ValidateCryptKey_valid K hK, bind, Except.bind, pure,
        Except.pure]
    · unfold cfbDecryptSpec
      rw [cfbDecryptBlocks_length _ _ _ _ (le_refl _)]
      simp
  · constructor
    · rintro ⟨c, P, err, h⟩
      exact (Decrypt_err aes crypt c P err hk h).1
    · intro hc
      exact ⟨crypt, [], .InvalidCipherText, Decrypt_short aes crypt hk hc⟩

/-- Witness of C15: twenty arbitrary bytes decrypt, without error, to four
bytes under `"0123456789abcdef"`. -/
theorem C15_no_integrity_check_witness :
    (key16.length = 16 ∨ key16.length = 24 ∨ key16.length = 32) ∧
    16 ≤ (List.replicate 20 (0xff : Byte)).length ∧
    (∃ d d' P, NewCryptFromCipherData (List.replicate 20 0xff) key16 = .ok d ∧
        d.Decrypt toyAES = .ok (d', P, none) ∧
        P.length = (List.replicate 20 (0xff : Byte)).length - 16) ∧
    (List.replicate 20 (0xff : Byte)).length - 16 = 4 :=
  ⟨by decide, by decide,
    (C15_no_integrity_check toyAES (List.replicate 20 0xff) key16 ⟨[], [], key16⟩
      (by decide) rfl).1 (by decide),
    by decide⟩

/-- C16. Frame of the two operations: on every envelope `Encrypt` and
`Decrypt` return; a successful `Encrypt` leaves `UnencryptedData` and `Key`
unchanged and sets `CipherData` to the returned buffer; a successful `Decrypt`
leaves `CipherData` and `Key` unchanged and sets `UnencryptedData` to the
returned buffer. -/
theorem C16_frame (aes : AES) (rand : Reader) (crypt : Crypt) :
    (∃ r, crypt.Encrypt aes rand = .ok r) ∧
    (∃ r, crypt.Decrypt aes = .ok r) ∧
    (∀ crypt' data, crypt.Encrypt aes rand = .ok (crypt', data, none) →
      crypt'.UnencryptedData = crypt.UnencryptedData ∧ crypt'.Key = crypt.Key ∧
      crypt'.CipherData = data) ∧
    (∀ crypt' data, crypt.Decrypt aes = .ok (crypt', data, none) →
      crypt'.CipherData = crypt.CipherData ∧ crypt'.Key = crypt.Key ∧
      crypt'.UnencryptedData = data) := by
  obtain ⟨ce, de, ee, he, hu, hke, hce⟩ := Encrypt_total aes rand crypt
  obtain ⟨cd, dd, ed, hd, hc, hkd, hud⟩ := Decrypt_total aes crypt
  refine ⟨⟨_, he⟩, ⟨_, hd⟩, fun crypt' data h => ?_, fun crypt' data h => ?_⟩
  · rw [he] at h
    simp only [Except.ok.injEq, Prod.mk.injEq] at h
    obtain ⟨h1, h2, h3⟩ := h
    subst h1 h2
    exact ⟨hu, hke, (hce h3).1⟩
  · rw [hd] at h
    simp only [Except.ok.injEq, Prod.mk.injEq] at h
    obtain ⟨h1, h2, h3⟩ := h
    subst h1 h2
    exact ⟨hc, hkd, (hud h3).1⟩

/-- Witness of C16: an `Encrypt` on an envelope that already holds a
ciphertext, and a `Decrypt` on an envelope that already holds a plaintext. -/
theorem C16_frame_witness :
    (∃ crypt' data,
      Crypt.Encrypt toyAES rand0 ⟨[5, 6], [9, 9, 9], key16⟩ = .ok (crypt', data, none) ∧
      crypt'.UnencryptedData = [5, 6] ∧ crypt'.Key = key16 ∧ crypt'.CipherData = data) ∧
    (∃ crypt' data,
      Crypt.Decrypt toyAES ⟨[5, 6], List.replicate 20 0xff, key16⟩ = .ok (crypt', data, none) ∧
      crypt'.CipherData = List.replicate 20 0xff ∧ crypt'.Key = key16 ∧
      crypt'.UnencryptedData = data) := by
  have he := Encrypt_ok toyAES rand0 ⟨[5, 6], [9, 9, 9], key16⟩ iv0 (by decide) (by decide)
  have hd := Decrypt_ok toyAES ⟨[5, 6], List.replicate 20 0xff, key16⟩
    ⟨List.replicate 16 0xff, by decide⟩ (List.replicate 4 0xff) (by decide) (by decide)
  exact ⟨⟨_, _, he,
      (C16_frame toyAES rand0 ⟨[5, 6], [9, 9, 9], key16⟩).2.2.1 _ _ he⟩,
    ⟨_, _, hd,
      (C16_frame toyAES rand0 ⟨[5, 6], List.replicate 20 0xff, key16⟩).2.2.2 _ _ hd⟩⟩

/-- C17. Malleability of the stream mode: for every envelope with a key of
length 16, 24 or 32 whose ciphertext is a 16-byte IV followed by a payload `c`
of at most 16 bytes, and every byte sequence `d` as long as `c`, `Decrypt`
succeeds with some plaintext `p`, and `Decrypt` of the same envelope with the
payload replaced by `c XOR d` succeeds with the plaintext `p XOR d`. -/
theorem C17_malleability (aes : AES) (crypt : Crypt) (iv : Block) (c d : List Byte)
    (hK : crypt.Key.length = 16 ∨ crypt.Key.length = 24 ∨ crypt.Key.length = 32)
    (hC : crypt.CipherData = iv.val ++ c)
    (hc : c.length ≤ 16) (hd : d.length = c.length) :
    ∃ e1 p e2,
      crypt.Decrypt aes = .ok (e1, p, none) ∧
      p.length = c.length ∧
      Crypt.Decrypt aes { crypt with CipherData := iv.val ++ xorBlock c d }
        = .ok (e2, xorBlock p d, none) ∧
      (xorBlock p d).length = c.length := by
  have hks : (aes crypt.Key iv).val.length = 16 := (aes crypt.Key iv).property
  have h1 := Decrypt_ok aes crypt iv c hK hC
  have h2 := Decrypt_ok aes { crypt with CipherData := iv.val ++ xorBlock c d } iv
    (xorBlock c d) hK rfl
  have hxl : (xorBlock c d).length ≤ 16 := by rw [xorBlock_length]; omega
  rw [cfbDecryptSpec_first_block _ _ _ hc] at h1
  rw [cfbDecryptSpec_first_block _ _ _ hxl, xorBlock_right_comm] at h2
  refine ⟨_, _, _, h1, ?_, h2, ?_⟩
  · rw [xorBlock_length, hks]; omega
  · rw [xorBlock_length, xorBlock_length, hks]; omega

/-- Witness of C17: flipping the lowest bit of the first payload byte. -/
theorem C17_malleability_witness :
    (key16.length = 16 ∨ key16.length = 24 ∨ key16.length = 32) ∧
    ([0x10, 0x20, 0x30] : List Byte).length ≤ 16 ∧
    ([0x01, 0x00, 0x00] : List Byte).length = ([0x10, 0x20, 0x30] : List Byte).length ∧
    xorBlock [0x10, 0x20, 0x30] [0x01, 0x00, 0x00] = [0x11, 0x20, 0x30] ∧
    ∃ e1 p e2,
      Crypt.Decrypt toyAES ⟨[], iv0.val ++ [0x10, 0x20, 0x30], key16⟩ = .ok (e1, p, none) ∧
      p.length = ([0x10, 0x20, 0x30] : List Byte).length ∧
      Crypt.Decrypt toyAES ⟨[], iv0.val ++ xorBlock [0x10, 0x20, 0x30] [0x01, 0x00, 0x00], key16⟩
        = .ok (e2, xorBlock p [0x01, 0x00, 0x00], none) ∧
      (xorBlock p [0x01, 0x00, 0x00]).length = ([0x10, 0x20, 0x30] : List Byte).length :=
  ⟨by decide, by decide, by decide, by decide,
    C17_malleability toyAES ⟨[], iv0.val ++ [0x10, 0x20, 0x30], key16⟩ iv0
      [0x10, 0x20, 0x30] [0x01, 0x00, 0x00] (by decide) rfl (by decide) (by decide)⟩

/-- C18. Truncation: for every envelope with a key of length 16, 24 or 32 and
a ciphertext `C` of at least 16 bytes, and every `n` with `n <= len(C) - 16`,
`Decrypt` succeeds with some plaintext `p`, and `Decrypt` of the same envelope
with the ciphertext cut to its first `16 + n` bytes succeeds with the first
`n` bytes of `p`. -/
theorem C18_truncation (aes : AES) (crypt : Crypt) (n : Nat)
    (hK : crypt.Key.length = 16 ∨ crypt.Key.length = 24 ∨ crypt.Key.length = 32)
    (hC : 16 ≤ crypt.CipherData.length)
    (hn : n ≤ crypt.CipherData.length - 16) :
    ∃ e1 p e2,
      crypt.Decrypt aes = .ok (e1, p, none) ∧
      Crypt.Decrypt aes { crypt with CipherData := crypt.CipherData.take (16 + n) }
        = .ok (e2, p.take n, none) ∧
      (p.take n).length = n := by
  have hiv : (crypt.CipherData.take 16).length = 16 := by simp [hC]
  have hsplit : crypt.CipherData
      = (⟨crypt.CipherData.take 16, hiv⟩ : Block).val ++ crypt.CipherData.drop 16 :=
    (List.take_append_drop 16 _).symm
  have hcut : crypt.CipherData.take (16 + n)
      = (⟨crypt.CipherData.take 16, hiv⟩ : Block).val ++ (crypt.CipherData.drop 16).take n := by
    rw [List.take_add]
  have h1 := Decrypt_ok aes crypt _ _ hK hsplit
  have h2 := Decrypt_ok aes { crypt with CipherData := crypt.CipherData.take (16 + n) }
    ⟨crypt.CipherData.take 16, hiv⟩ ((crypt.CipherData.drop 16).take n) hK hcut
  rw [cfbDecryptSpec_take] at h2
  refine ⟨_, _, _, h1, h2, ?_⟩
  rw [List.length_take]
  unfold cfbDecryptSpec
  rw [cfbDecryptBlocks_length _ _ _ _ (le_refl _)]
  simp
  omega

/-- Witness of C18: a 36-byte ciphertext cut to 21 bytes. -/
theorem C18_truncation_witness :
    (key16.length = 16 ∨ key16.length = 24 ∨ key16.length = 32) ∧
    16 ≤ (List.replicate 36 (0xa5 : Byte)).length ∧
    5 ≤ (List.replicate 36 (0xa5 : Byte)).length - 16 ∧
    ∃ e1 p e2,
      Crypt.Decrypt toyAES ⟨[], List.replicate 36 0xa5, key16⟩ = .ok (e1, p, none) ∧
      Crypt.Decrypt toyAES ⟨[], (List.replicate 36 0xa5).take (16 + 5), key16⟩
        = .ok (e2, p.take 5, none) ∧
      (p.take 5).length = 5 :=
  ⟨by decide, by decide, by decide,
    C18_truncation toyAES ⟨[], List.replicate 36 0xa5, key16⟩ 5 (by decide) (by decide)
      (by decide)⟩

end Crypter
